import Mathlib

/-!
# Pedigree graph engine of `app.py` — a shallow embedding

This file embeds the pedigree-graph core of the repository's single source
file `app.py` (the trout family-tree viewer) and proves / refutes the
specification's claims about it.

Embedding conventions:
* A population (Python: the dict produced by `process_api_data`) is an
  association list from id to record; `pylookup` is `dict.get`.
* A trout record keeps the fields the engine reads: `id`, `coi` and the
  optional `parents` list (each Python parent dict is represented by its
  `tokenId`).  `coi` is a number supplied by the remote API; the engine
  never computes it, it only copies it around.
* Python truthiness tests (`if trout:`, `if left_parent_id:`,
  `if trout.get('parents')`, `if child_info['descendants']:`) are embedded
  by `pytruthy` / `pytruthyL` / emptiness tests: `None` and `0` and empty
  containers are falsy.
* Unbounded Python recursion is embedded with an explicit fuel argument;
  exhausting the fuel models Python's `RecursionError` and is returned as
  `Except.error ()`.  `build_family_tree` returning Python `None` for a
  missing root is `Except.ok none`.
* A `networkx.DiGraph` is a `Graph`: an insertion-ordered association list
  of nodes (`add_node` on an existing id merges the given attributes and
  never duplicates the id; `add_edge` inserts missing endpoints with empty
  attribute sets) plus an insertion-ordered duplicate-free edge list.
* The graph-building part of the `index` route (the `tree_type` dispatch)
  is `query_graph`; Python exceptions that the route can raise while
  building the graph (`TypeError` from subscripting `None`, `KeyError`,
  `RecursionError`) are the constructors of `QErr`.
-/

/-- One trout record, restricted to the fields the pedigree engine reads:
`trout['id']`, `trout['coi']`, and `trout['parents']` (a list of the
parents' `tokenId`s, or `none` when the JSON field is `null`/missing). -/
structure Trout where
  id : Int
  coi : Int
  parents : Option (List Int)
deriving DecidableEq, Repr

/-- The processed population: `process_api_data` builds a dict from id to
trout record; embedded as an insertion-ordered association list. -/
abbrev Pop := List (Int × Trout)

/-- Python `data.get(child_id)` on the population dict. -/
def pylookup (data : Pop) (i : Int) : Option Trout :=
  (List.find? (fun kv => kv.1 == i) data).map (fun kv => kv.2)

/-- Python truthiness of an optional integer: `None` and `0` are falsy. -/
def pytruthy : Option Int → Bool
  | none => false
  | some v => v != 0

/-- Python truthiness of an optional list: `None` and `[]` are falsy. -/
def pytruthyL : Option (List Int) → Bool
  | none => false
  | some l => !l.isEmpty

/-- The list of parent `tokenId`s of a record (empty when `parents` is
`null`/missing), as in `[p['tokenId'] for p in trout['parents']]`. -/
def tokensOf (t : Trout) : List Int :=
  match t.parents with
  | none => []
  | some l => l

/-- The expression `trout.get('parents', [{}])[0].get('tokenId') if
trout.get('parents') else None` of `fetch_parent`: the first parent
token when the `parents` list is truthy (non-`None`, non-empty). -/
def left_parent_of (t : Trout) : Option Int :=
  match t.parents with
  | some (a :: _) => some a
  | _ => none

/-- The expression `trout.get('parents', [{}])[1].get('tokenId') if
trout.get('parents') and len(trout.get('parents')) > 1 else None` of
`fetch_parent`: the second parent token when the truthy `parents` list
has length > 1. -/
def right_parent_of (t : Trout) : Option Int :=
  match t.parents with
  | some (_ :: b :: _) => some b
  | _ => none

/-- `fetch_parent(data, child_id)`: look the record up; if found return
`(trout['id'], trout['coi'], left_parent_id, right_parent_id)`;
otherwise return `None`. -/
def fetch_parent (data : Pop) (childId : Int) :
    Option (Int × Int × Option Int × Option Int) :=
  match pylookup data childId with
  | none => none
  | some t => some (t.id, t.coi, left_parent_of t, right_parent_of t)

/-- An ancestor-tree node as built by `build_family_tree`:
`{'id': i, 'coi': c, 'level': lvl, 'children': {...}}`.  Each child slot
holds the singleton dict `{parent_record_id: parent_node}` returned by the
recursive call, embedded as the key/node pair; `none` covers both an
absent `children` key and a stored Python `None` (the two are
indistinguishable to the only consumer, which tests truthiness). -/
inductive FNode : Type where
  | mk : Int → Int → Nat → Option (Int × FNode) → Option (Int × FNode) → FNode

/-- The `'id'` entry of an ancestor-tree node. -/
def FNode.nid : FNode → Int
  | .mk i _ _ _ _ => i

/-- The `'coi'` entry of an ancestor-tree node. -/
def FNode.coi : FNode → Int
  | .mk _ c _ _ _ => c

/-- The `'level'` entry of an ancestor-tree node. -/
def FNode.lvl : FNode → Nat
  | .mk _ _ v _ _ => v

/-- The `'children'['left']` slot of an ancestor-tree node. -/
def FNode.lchild : FNode → Option (Int × FNode)
  | .mk _ _ _ l _ => l

/-- The `'children'['right']` slot of an ancestor-tree node. -/
def FNode.rchild : FNode → Option (Int × FNode)
  | .mk _ _ _ _ r => r

/-- `build_family_tree(data, trout_id, tree={}, level)`: returns the
singleton dict `{record_id: node}` (embedded as the key/node pair), or
Python `None` (`.ok none`) when `fetch_parent` found nothing, or a
`RecursionError` (`.error ()`) when the recursion budget is exhausted.
A parent link is followed only when its id is truthy
(`if left_parent_id:`), and the recursive result — possibly `None` for a
missing parent — is stored in the corresponding child slot. -/
def build_family_tree (data : Pop) (troutId : Int) (lvl : Nat) :
    Nat → Except Unit (Option (Int × FNode))
  | 0 => .error ()
  | fuel + 1 =>
    match fetch_parent data troutId with
    | none => .ok none
    | some (i, c, lp, rp) =>
      match (if pytruthy lp then build_family_tree data (lp.getD 0) (lvl + 1) fuel
             else .ok none) with
      | .error e => .error e
      | .ok l =>
        match (if pytruthy rp then build_family_tree data (rp.getD 0) (lvl + 1) fuel
               else .ok none) with
        | .error e => .error e
        | .ok r => .ok (some (i, .mk i c lvl l r))

/-- The attribute dict of one graph node.  `add_node(..., level=, inbreeding=)`
fills `level` and `inbreeding`; `add_node(..., label=, inbreeding=)` fills
`label` and `inbreeding`; an endpoint created implicitly by `add_edge`
has no attributes at all. -/
structure NodeAttrs where
  level : Option Int
  inbreeding : Option Int
  label : Option String
deriving DecidableEq, Repr

/-- A `networkx.DiGraph`: insertion-ordered node map and edge list. -/
structure Graph where
  nodes : List (Int × NodeAttrs)
  edges : List (Int × Int)
deriving DecidableEq, Repr

/-- The attribute dict of a node created implicitly by `add_edge`. -/
def emptyAttrs : NodeAttrs := ⟨none, none, none⟩

/-- `G = nx.DiGraph()`. -/
def newDiGraph : Graph := ⟨[], []⟩

/-- Update the attribute dict stored under key `i`, inserting the key at
the end when absent — `networkx`'s `add_node` semantics: an existing node
is updated in place and never duplicated. -/
def set_attrs : List (Int × NodeAttrs) → Int → (NodeAttrs → NodeAttrs) →
    List (Int × NodeAttrs)
  | [], i, f => [(i, f emptyAttrs)]
  | (j, a) :: rest, i, f =>
      if j = i then (j, f a) :: rest else (j, a) :: set_attrs rest i f

/-- `graph.add_node(i, level=lvl, inbreeding=coi)` as used by
`add_nodes_edges`. -/
def add_node_level (g : Graph) (i : Int) (lvl : Int) (coi : Int) : Graph :=
  ⟨set_attrs g.nodes i (fun a => { a with level := some lvl, inbreeding := some coi }),
   g.edges⟩

/-- `graph.add_node(i, label=f'Trout #{i}', inbreeding=coi)` as used by
`add_descendants_to_graph`; note it sets no `level`. -/
def add_node_label (g : Graph) (i : Int) (coi : Int) : Graph :=
  ⟨set_attrs g.nodes i
     (fun a => { a with label := some ("Trout #" ++ toString i), inbreeding := some coi }),
   g.edges⟩

/-- Insert a bare node for `i` when absent (what `add_edge` does to a
missing endpoint). -/
def ensure_node (ns : List (Int × NodeAttrs)) (i : Int) : List (Int × NodeAttrs) :=
  if ns.any (fun kv => kv.1 == i) then ns else ns ++ [(i, emptyAttrs)]

/-- `graph.add_edge(p, c)`: create missing endpoints with empty attribute
dicts and append the edge unless already present. -/
def add_edge (g : Graph) (p c : Int) : Graph :=
  { nodes := ensure_node (ensure_node g.nodes p) c,
    edges := if g.edges.contains (p, c) then g.edges else g.edges ++ [(p, c)] }

mutual

/-- `add_nodes_edges(graph, node, level)`: add the node with its level and
`inbreeding=node['coi']`, then process the `'left'` and `'right'` child
slots in that order. -/
def add_nodes_edges (g : Graph) (n : FNode) (lvl : Int) : Graph :=
  match n with
  | .mk nid ncoi _ l r =>
    let g1 := add_node_level g nid lvl ncoi
    let g2 := add_parent_side g1 nid lvl l
    add_parent_side g2 nid lvl r

/-- One iteration of the `for side in ['left', 'right']` loop: when the
slot is truthy, iterate the singleton dict `{parent_id: parent_data}`:
add the parent node one level up, add the `parent -> child` edge, recurse.
(The inner `if parent_data:` guard is always true for the dicts
`build_family_tree` stores, since a stored dict value is never `None`.) -/
def add_parent_side (g : Graph) (nid : Int) (lvl : Int) :
    Option (Int × FNode) → Graph
  | none => g
  | some (pid, pd) =>
      add_nodes_edges (add_edge (add_node_level g pid (lvl - 1) pd.coi) pid nid)
        pd (lvl - 1)

end

/-- `fetch_direct_descendants(data, parent_id)`: scan the population in
insertion order and collect `{'id': key, 'coi': trout['coi']}` for every
record whose truthy `parents` list contains `parent_id`. -/
def fetch_direct_descendants (data : Pop) (parentId : Int) : List (Int × Int) :=
  List.filterMap
    (fun kv =>
      if pytruthyL kv.2.parents && (tokensOf kv.2).contains parentId then
        some (kv.1, kv.2.coi)
      else none)
    data

/-- A descendant tree as built by `build_full_descendant_tree`: the dict
`{child_id: {'coi': c, 'descendants': subtree}}` in insertion order. -/
inductive DTree : Type where
  | mk : List (Int × Int × DTree) → DTree

/-- The entry list of a descendant-tree dict. -/
def DTree.entries : DTree → List (Int × Int × DTree)
  | .mk l => l

/-- The `for descendant in direct_descendants` loop of
`build_full_descendant_tree`, abstracted over the recursive call (which
is supplied one fuel step lower): build each subtree in order,
propagating a `RecursionError`. -/
def descend_list (rec : Int → Except Unit DTree) :
    List (Int × Int) → Except Unit (List (Int × Int × DTree))
  | [] => .ok []
  | (cid, ccoi) :: rest => do
      let sub ← rec cid
      let tl ← descend_list rec rest
      .ok ((cid, ccoi, sub) :: tl)

/-- `build_full_descendant_tree(data, trout_id)`: for every direct
descendant, recursively build its subtree; fuel exhaustion models
Python's `RecursionError`. -/
def build_full_descendant_tree (data : Pop) (troutId : Int) :
    Nat → Except Unit DTree
  | 0 => .error ()
  | fuel + 1 =>
      (descend_list (fun cid => build_full_descendant_tree data cid fuel)
        (fetch_direct_descendants data troutId)).map DTree.mk

mutual

/-- `add_descendants_to_graph(graph, parent_id, descendant_tree)`. -/
def add_descendants_to_graph (g : Graph) (parentId : Int) (t : DTree) : Graph :=
  match t with
  | .mk entries => add_desc_entries g parentId entries

/-- The `for child_id, child_info in descendant_tree.items()` loop: add the
child node with `label` and `inbreeding` (but no `level`), add the
`parent -> child` edge, and recurse when `child_info['descendants']` is a
non-empty dict. -/
def add_desc_entries (g : Graph) (parentId : Int) :
    List (Int × Int × DTree) → Graph
  | [] => g
  | (cid, ccoi, sub) :: rest =>
      let g1 := add_edge (add_node_label g cid ccoi) parentId cid
      let g2 := if !sub.entries.isEmpty then add_descendants_to_graph g1 cid sub
                else g1
      add_desc_entries g2 parentId rest

end

/-- The `tree_type` form values the `index` route dispatches on. -/
inductive Mode : Type where
  | ancestors
  | descendants
  | full_tree
deriving DecidableEq, Repr

/-- The Python exceptions the route's graph-building code can raise:
`TypeError` (subscripting the `None` returned for a missing root),
`KeyError` (the tree's key differs from the queried id), and
`RecursionError` (unbounded recursion, modelled by fuel exhaustion). -/
inductive QErr : Type where
  | typeError
  | keyError
  | recursionError
deriving DecidableEq, Repr

/-- The graph-building part of the `index` route: dispatch on `tree_type`,
build the relevant trees and flatten them into one `nx.DiGraph`.
`family_tree[int(trout_id)]` subscripts the returned dict: if the builder
returned `None` this raises `TypeError`; if the dict's single key is not
the queried id it raises `KeyError`. -/
def query_graph (data : Pop) (rootId : Int) (mode : Mode) (fuel : Nat) :
    Except QErr Graph :=
  match mode with
  | .ancestors =>
    match build_family_tree data rootId 0 fuel with
    | .error _ => .error .recursionError
    | .ok none => .error .typeError
    | .ok (some (k, t)) =>
        if k = rootId then .ok (add_nodes_edges newDiGraph t 0)
        else .error .keyError
  | .descendants =>
    match build_full_descendant_tree data rootId fuel with
    | .error _ => .error .recursionError
    | .ok dt => .ok (add_descendants_to_graph newDiGraph rootId dt)
  | .full_tree =>
    match build_family_tree data rootId 0 fuel with
    | .error _ => .error .recursionError
    | .ok none => .error .typeError
    | .ok (some (k, t)) =>
        if k = rootId then
          match build_full_descendant_tree data rootId fuel with
          | .error _ => .error .recursionError
          | .ok dt =>
              .ok (add_descendants_to_graph (add_nodes_edges newDiGraph t 0) rootId dt)
        else .error .keyError

/-! ## Specification-side definition of the inbreeding coefficient

The spec (§4.4) defines `coefficient(x)` as the size of the ancestor
multiset of `x` (one entry per distinct upward path, stopping at founders)
minus the number of distinct ancestor ids.  The code computes no such
value (the attached `coi` comes from the remote API), so this definition
follows the spec's words and is used to compare the two. -/

/-- Fold of the spec's multiset construction over a list of parent ids:
each present parent contributes its own id plus its own multiset. -/
def specAncestorEach (rec : Int → List Int) : List Int → List Int
  | [] => []
  | p :: rest => (p :: rec p) ++ specAncestorEach rec rest

/-- The ancestor multiset of the spec (§4.4): union over the present
parent links of (parent's own id + parent's ancestor multiset). -/
def specAncestorMultiset (data : Pop) (i : Int) : Nat → List Int
  | 0 => []
  | fuel + 1 =>
    match pylookup data i with
    | none => []
    | some r =>
        specAncestorEach (fun p => specAncestorMultiset data p fuel) (tokensOf r)

/-- The spec's coefficient: multiset size minus distinct-ancestor count. -/
def specCoefficient (data : Pop) (i : Int) (fuel : Nat) : Nat :=
  (specAncestorMultiset data i fuel).length -
    (specAncestorMultiset data i fuel).dedup.length

/-! ## State-passing embedding for the frame claim

Python passes the population dict by reference into every traversal
function, which could in principle mutate it.  To state that the engine
leaves the population unchanged, the traversals are also embedded in a
state-passing style, with the population threaded through every call and
returned alongside the result, exactly mirroring the call structure of
the pure versions above. -/

/-- `fetch_parent`, threading the population through. -/
def fetch_parentS (data : Pop) (childId : Int) :
    (Option (Int × Int × Option Int × Option Int)) × Pop :=
  match pylookup data childId with
  | none => (none, data)
  | some t => ((some (t.id, t.coi, left_parent_of t, right_parent_of t)), data)

/-- `build_family_tree`, threading the population through. -/
def build_family_treeS (data : Pop) (troutId : Int) (lvl : Nat) :
    Nat → (Except Unit (Option (Int × FNode))) × Pop
  | 0 => (.error (), data)
  | fuel + 1 =>
    match fetch_parentS data troutId with
    | (none, data1) => (.ok none, data1)
    | (some (i, c, lp, rp), data1) =>
      match (if pytruthy lp then build_family_treeS data1 (lp.getD 0) (lvl + 1) fuel
             else (.ok none, data1)) with
      | (.error e, data2) => (.error e, data2)
      | (.ok l, data2) =>
        match (if pytruthy rp then build_family_treeS data2 (rp.getD 0) (lvl + 1) fuel
               else (.ok none, data2)) with
        | (.error e, data3) => (.error e, data3)
        | (.ok r, data3) => (.ok (some (i, .mk i c lvl l r)), data3)

/-- `fetch_direct_descendants`, threading the population through. -/
def fetch_direct_descendantsS (data : Pop) (parentId : Int) :
    (List (Int × Int)) × Pop :=
  (List.filterMap
    (fun kv =>
      if pytruthyL kv.2.parents && (tokensOf kv.2).contains parentId then
        some (kv.1, kv.2.coi)
      else none)
    data, data)

/-- The descendant loop, threading the population through; abstracted
over the recursive call exactly like `descend_list`. -/
def descend_listS (rec : Pop → Int → (Except Unit DTree) × Pop) (data : Pop) :
    List (Int × Int) → (Except Unit (List (Int × Int × DTree))) × Pop
  | [] => (.ok [], data)
  | (cid, ccoi) :: rest =>
      match rec data cid with
      | (.error e, data1) => (.error e, data1)
      | (.ok sub, data1) =>
        match descend_listS rec data1 rest with
        | (.error e, data2) => (.error e, data2)
        | (.ok tl, data2) => (.ok ((cid, ccoi, sub) :: tl), data2)

/-- `build_full_descendant_tree`, threading the population through. -/
def build_full_descendant_treeS (data : Pop) (troutId : Int) :
    Nat → (Except Unit DTree) × Pop
  | 0 => (.error (), data)
  | fuel + 1 =>
      match fetch_direct_descendantsS data troutId with
      | (ds, data1) =>
        match descend_listS (fun d cid => build_full_descendant_treeS d cid fuel)
            data1 ds with
        | (.error e, data2) => (.error e, data2)
        | (.ok entries, data2) => (.ok (DTree.mk entries), data2)

/-- The route's graph building, threading the population through. -/
def query_graphS (data : Pop) (rootId : Int) (mode : Mode) (fuel : Nat) :
    (Except QErr Graph) × Pop :=
  match mode with
  | .ancestors =>
    match build_family_treeS data rootId 0 fuel with
    | (.error _, data1) => (.error .recursionError, data1)
    | (.ok none, data1) => (.error .typeError, data1)
    | (.ok (some (k, t)), data1) =>
        if k = rootId then (.ok (add_nodes_edges newDiGraph t 0), data1)
        else (.error .keyError, data1)
  | .descendants =>
    match build_full_descendant_treeS data rootId fuel with
    | (.error _, data1) => (.error .recursionError, data1)
    | (.ok dt, data1) => (.ok (add_descendants_to_graph newDiGraph rootId dt), data1)
  | .full_tree =>
    match build_family_treeS data rootId 0 fuel with
    | (.error _, data1) => (.error .recursionError, data1)
    | (.ok none, data1) => (.error .typeError, data1)
    | (.ok (some (k, t)), data1) =>
        if k = rootId then
          match build_full_descendant_treeS data1 rootId fuel with
          | (.error _, data2) => (.error .recursionError, data2)
          | (.ok dt, data2) =>
              (.ok (add_descendants_to_graph (add_nodes_edges newDiGraph t 0) rootId dt),
               data2)
        else (.error .keyError, data1)

/-! ## Concrete populations used by the claims -/

/-- The spec's example population: 1 and 2 founders, 3 and 4 children of
(1,2), 5 child of (3,4).  The `coi` fields carry the values the remote
API would serve for this pedigree under the spec's scenario
(`coefficient(5) = 2`, all others 0). -/
def exPop : Pop :=
  [(1, ⟨1, 0, none⟩), (2, ⟨2, 0, none⟩),
   (3, ⟨3, 0, some [1, 2]⟩), (4, ⟨4, 0, some [1, 2]⟩),
   (5, ⟨5, 2, some [3, 4]⟩)]

/-- A two-individual population whose parent relation is cyclic:
1 is a child of 2 and 2 is a child of 1. -/
def cycPop : Pop :=
  [(1, ⟨1, 0, some [2, 2]⟩), (2, ⟨2, 0, some [1, 1]⟩)]

/-- A founder with a single child; used to exhibit the missing `level`
attribute on descendant nodes. -/
def desPop : Pop :=
  [(1, ⟨1, 0, none⟩), (2, ⟨2, 0, some [1, 1]⟩)]

/-- A single individual whose `coi` field is 1 even though it has no
ancestors at all. -/
def coiPop : Pop := [(1, ⟨1, 1, none⟩)]

/-- Individual 1 has a missing left parent (id 7 absent from the
population) and a present right parent 2 (a founder). -/
def gapPop : Pop :=
  [(1, ⟨1, 0, some [7, 2]⟩), (2, ⟨2, 0, none⟩)]

/-- Individual 1 has a present left parent 2 (a founder) and a missing
right parent (id 9 absent from the population). -/
def gapPop2 : Pop :=
  [(1, ⟨1, 0, some [2, 9]⟩), (2, ⟨2, 0, none⟩)]

/-- Individual 3 lists `0` for both parents, and an individual with id 0
does exist in the population; the truthiness test prunes it anyway. -/
def zeroPop : Pop :=
  [(3, ⟨3, 0, some [0, 0]⟩), (0, ⟨0, 0, none⟩)]

/-- Individual 3 has left parent 0 (pruned by truthiness) and a present
right parent 1; individual 4 has a present left parent 1 and right
parent 0 (pruned); a record with id 0 exists. -/
def zeroPop2 : Pop :=
  [(3, ⟨3, 0, some [0, 1]⟩), (4, ⟨4, 0, some [1, 0]⟩),
   (1, ⟨1, 0, none⟩), (0, ⟨0, 0, none⟩)]


/-! ## Derived notions used by the theorems -/

/-- Association-list lookup on the node list of a graph (what
`G.nodes[n]` reads). -/
def node_attrs (ns : List (Int × NodeAttrs)) (i : Int) : Option NodeAttrs :=
  (List.find? (fun kv => kv.1 == i) ns).map (fun kv => kv.2)

/-- The id list of a graph's node map, in insertion order. -/
def nkeys (ns : List (Int × NodeAttrs)) : List Int :=
  ns.map Prod.fst

mutual

/-- Every id `add_nodes_edges` touches in a family tree: the node's own id
plus, for each child slot, the stored key and everything below it. -/
def allIds : FNode → List Int
  | .mk i _ _ l r => i :: (sideIds l ++ sideIds r)

/-- The ids touched through one child slot. -/
def sideIds : Option (Int × FNode) → List Int
  | none => []
  | some (pid, pt) => pid :: allIds pt

end

/-- The ids strictly above a tree's root node. -/
def subIds : FNode → List Int
  | .mk _ _ _ l r => sideIds l ++ sideIds r

/-- The parent-relation of the population data: `DataEdge data p c` holds
when some record stored under key `c` lists `p` among its parent
`tokenId`s.  Every edge either builder puts in the graph is of this
shape. -/
def DataEdge (data : Pop) (p c : Int) : Prop :=
  ∃ r, (c, r) ∈ data ∧ p ∈ tokensOf r

/-- The population is a well-formed id-keyed mapping: every record is
stored under its own `id` field (this is exactly how `process_api_data`
builds the dict). -/
def WellKeyed (data : Pop) : Prop :=
  ∀ kv ∈ data, kv.2.id = kv.1

instance (data : Pop) : Decidable (WellKeyed data) := by
  unfold WellKeyed; infer_instance

/-- `f` is a rank function for the population's parent relation: parents
rank strictly above children.  A finite relation admits such a rank
exactly when it is acyclic, so this is the §3 acyclicity invariant. -/
def Ranked (data : Pop) (f : Int → Nat) : Prop :=
  ∀ p c, DataEdge data p c → f c < f p

/-- Transitive closure of a binary relation on ids. -/
inductive EdgeTC (R : Int → Int → Prop) : Int → Int → Prop where
  | base {a b : Int} : R a b → EdgeTC R a b
  | step {a b c : Int} : R a b → EdgeTC R b c → EdgeTC R a c

/-- A graph is acyclic when no id reaches itself through a nonempty
chain of edges. -/
def EdgesAcyclic (g : Graph) : Prop :=
  ∀ n, ¬ EdgeTC (fun p c => (p, c) ∈ g.edges) n n

mutual

/-- Every edge `add_nodes_edges` adds for a tree: for each child slot,
the `parent -> child` edge plus the edges of the subtree. -/
def treeEdges : FNode → List (Int × Int)
  | .mk i _ _ l r => sideEdges i l ++ sideEdges i r

/-- The edges contributed through one child slot of the node `nid`. -/
def sideEdges (nid : Int) : Option (Int × FNode) → List (Int × Int)
  | none => []
  | some (pid, pt) => (pid, nid) :: treeEdges pt

end

mutual

/-- Well-formedness of a built family tree with respect to the
population: each stored child key is a parent `tokenId` of the node it
hangs under, the child node carries that id, and the subtree is again
well-formed. -/
def TW (data : Pop) : FNode → Prop
  | .mk i _ _ l r => sideTW data i l ∧ sideTW data i r

/-- Well-formedness of one child slot of a node whose id is `c`: the
stored key is a parent token of `c`'s record, the child node carries
that id and the `coi` field of the record stored under it, and the
subtree is again well-formed. -/
def sideTW (data : Pop) (c : Int) : Option (Int × FNode) → Prop
  | none => True
  | some (pid, pt) =>
      DataEdge data pid c ∧ pt.nid = pid ∧
        (∃ r, (pid, r) ∈ data ∧ pt.coi = r.coi) ∧ TW data pt

end

mutual

/-- Well-formedness of a built descendant tree under parent `pid`: every
entry is a data child of `pid` and its subtree is well-formed under it. -/
def DTW (data : Pop) (pid : Int) : DTree → Prop
  | .mk entries => DTWl data pid entries

/-- Entry-list form of `DTW`: each entry's stored `coi` is the `coi`
field of the record stored under the entry's id. -/
def DTWl (data : Pop) (pid : Int) : List (Int × Int × DTree) → Prop
  | [] => True
  | (cid, ccoi, sub) :: rest =>
      DataEdge data pid cid ∧ (∃ r, (cid, r) ∈ data ∧ ccoi = r.coi) ∧
        DTW data cid sub ∧ DTWl data pid rest

end

mutual

/-- Every edge `add_descendants_to_graph` adds for a descendant tree. -/
def dtEdges (pid : Int) : DTree → List (Int × Int)
  | .mk entries => dtEdgesL pid entries

/-- Entry-list form of `dtEdges`. -/
def dtEdgesL (pid : Int) : List (Int × Int × DTree) → List (Int × Int)
  | [] => []
  | (cid, _, sub) :: rest => (pid, cid) :: (dtEdges cid sub ++ dtEdgesL pid rest)

end

/-- Decidable sufficient check for `Ranked`, used to discharge the
acyclicity hypothesis on concrete populations. -/
def ranked_checkB (data : Pop) (f : Int → Nat) : Bool :=
  data.all (fun kv => (tokensOf kv.2).all (fun p => f kv.1 < f p))

/-- The ancestor graph the route builds for the spec's example population
rooted at 5 (also the full-tree graph, since 5 has no descendants). -/
def exAncGraph : Graph :=
  ⟨[(5, ⟨some 0, some 2, none⟩), (3, ⟨some (-1), some 0, none⟩),
    (1, ⟨some (-2), some 0, none⟩), (2, ⟨some (-2), some 0, none⟩),
    (4, ⟨some (-1), some 0, none⟩)],
   [(3, 5), (1, 3), (2, 3), (4, 5), (1, 4), (2, 4)]⟩

/-- The rank function witnessing acyclicity of `exPop`'s parent
relation: founders rank highest. -/
def exRank : Int → Nat :=
  fun n => if n = 5 then 0 else if n = 3 ∨ n = 4 then 1 else 2

/-- The hand-made cyclic descendant-tree value `{2: {coi: 0,
descendants: {1: {coi: 0, descendants: {}}}}}`. -/
def cycDT : DTree := .mk [(2, 0, .mk [(1, 0, .mk [])])]

/-- The graph the route builds in `descendants` mode for `desPop` rooted
at 1: the descendant node 2 carries no `level` attribute, and the root
node 1 — created implicitly by `add_edge` — carries no attributes at all. -/
def desGraph : Graph :=
  ⟨[(2, ⟨none, some 0, some "Trout #2"⟩), (1, ⟨none, none, none⟩)], [(1, 2)]⟩

theorem EdgeTC.mono {R S : Int → Int → Prop} (h : ∀ a b, S a b → R a b)
    {a b : Int} (hab : EdgeTC S a b) : EdgeTC R a b := by
  induction hab with
  | base hb => exact .base (h _ _ hb)
  | step hb _ ih => exact .step (h _ _ hb) ih

theorem EdgeTC.rank_lt {R : Int → Int → Prop} {f : Int → Nat}
    (h : ∀ a b, R a b → f b < f a) {a b : Int} (hab : EdgeTC R a b) :
    f b < f a := by
  induction hab with
  | base hb => exact h _ _ hb
  | step hb _ ih => exact lt_trans ih (h _ _ hb)

theorem EdgeTC.no_cycle {R : Int → Int → Prop} {f : Int → Nat}
    (h : ∀ a b, R a b → f b < f a) (n : Int) : ¬ EdgeTC R n n := by
  intro hc
  exact lt_irrefl _ (hc.rank_lt h)

/-! ### Primitive lookup and graph-operation lemmas -/

theorem pylookup_mem_of_some {data : Pop} {k : Int} {r : Trout}
    (h : pylookup data k = some r) : (k, r) ∈ data := by
  unfold pylookup at h
  cases hf : List.find? (fun kv => kv.1 == k) data with
  | none => rw [hf] at h; simp at h
  | some kv =>
      rw [hf] at h
      have hm := List.mem_of_find?_eq_some hf
      have hp := List.find?_some hf
      obtain ⟨a, b⟩ := kv
      simp only [] at hp
      have h1 : a = k := by simpa using hp
      have h2 : b = r := by simpa using h
      subst h1; subst h2
      exact hm

theorem wellKeyed_lookup {data : Pop} {k : Int} {r : Trout}
    (hW : WellKeyed data) (h : pylookup data k = some r) : r.id = k := by
  have hm := pylookup_mem_of_some h
  exact hW (k, r) hm

theorem node_attrs_nil (i : Int) : node_attrs [] i = none := rfl

theorem node_attrs_cons (j : Int) (a : NodeAttrs) (rest : List (Int × NodeAttrs))
    (i : Int) :
    node_attrs ((j, a) :: rest) i = if j = i then some a else node_attrs rest i := by
  unfold node_attrs
  by_cases hij : j = i
  · subst hij
    simp [List.find?_cons]
  · have hb : (j == i) = false := by simpa using hij
    simp [List.find?_cons, hb, hij]

theorem node_attrs_set_attrs_self (ns : List (Int × NodeAttrs)) (i : Int)
    (f : NodeAttrs → NodeAttrs) :
    node_attrs (set_attrs ns i f) i = some (f ((node_attrs ns i).getD emptyAttrs)) := by
  induction ns with
  | nil => simp [set_attrs, node_attrs_cons, node_attrs_nil]
  | cons kv rest ih =>
      obtain ⟨j, a⟩ := kv
      by_cases hij : j = i
      · subst hij
        simp [set_attrs, node_attrs_cons]
      · simp [set_attrs, hij, node_attrs_cons, ih]

theorem node_attrs_set_attrs_ne (ns : List (Int × NodeAttrs)) (i j : Int)
    (f : NodeAttrs → NodeAttrs) (hij : j ≠ i) :
    node_attrs (set_attrs ns i f) j = node_attrs ns j := by
  induction ns with
  | nil =>
      have : i ≠ j := fun h => hij h.symm
      simp [set_attrs, node_attrs_cons, node_attrs_nil, this]
  | cons kv rest ih =>
      obtain ⟨m, a⟩ := kv
      by_cases hmi : m = i
      · subst hmi
        have : m ≠ j := fun h => hij h.symm
        simp [set_attrs, node_attrs_cons, this]
      · by_cases hmj : m = j
        · subst hmj
          simp [set_attrs, hmi, node_attrs_cons]
        · simp [set_attrs, hmi, hmj, node_attrs_cons, ih]

theorem nkeys_set_attrs (ns : List (Int × NodeAttrs)) (i : Int)
    (f : NodeAttrs → NodeAttrs) :
    nkeys (set_attrs ns i f) = nkeys ns ∨
      nkeys (set_attrs ns i f) = nkeys ns ++ [i] := by
  induction ns with
  | nil => right; simp [set_attrs, nkeys]
  | cons kv rest ih =>
      obtain ⟨j, a⟩ := kv
      by_cases hij : j = i
      · left; simp [set_attrs, hij, nkeys]
      · rcases ih with h | h
        · left; simp only [set_attrs, if_neg hij, nkeys, List.map_cons]
          rw [show List.map Prod.fst (set_attrs rest i f) = nkeys (set_attrs rest i f) from rfl, h]
          rfl
        · right; simp only [set_attrs, if_neg hij, nkeys, List.map_cons]
          rw [show List.map Prod.fst (set_attrs rest i f) = nkeys (set_attrs rest i f) from rfl, h]
          rfl

theorem nkeys_nodup_set_attrs (ns : List (Int × NodeAttrs)) (i : Int)
    (f : NodeAttrs → NodeAttrs) (h : (nkeys ns).Nodup) :
    (nkeys (set_attrs ns i f)).Nodup := by
  induction ns with
  | nil => simp [set_attrs, nkeys]
  | cons kv rest ih =>
      obtain ⟨j, a⟩ := kv
      simp only [nkeys, List.map_cons, List.nodup_cons] at h
      by_cases hij : j = i
      · simp only [set_attrs, if_pos hij, nkeys, List.map_cons, List.nodup_cons]
        exact ⟨h.1, h.2⟩
      · simp only [set_attrs, if_neg hij, nkeys, List.map_cons, List.nodup_cons]
        refine ⟨?_, ih h.2⟩
        intro hmem
        rcases nkeys_set_attrs rest i f with he | he
        · rw [show List.map Prod.fst (set_attrs rest i f) = nkeys (set_attrs rest i f) from rfl, he] at hmem
          exact h.1 hmem
        · rw [show List.map Prod.fst (set_attrs rest i f) = nkeys (set_attrs rest i f) from rfl, he] at hmem
          rcases List.mem_append.mp hmem with hm | hm
          · exact h.1 hm
          · simp at hm; exact hij hm

theorem find?_append_some {α : Type} (p : α → Bool) {l1 : List α} (l2 : List α)
    {x : α} (h : l1.find? p = some x) : (l1 ++ l2).find? p = some x := by
  induction l1 with
  | nil => simp at h
  | cons a rest ih =>
      cases hp : p a with
      | true =>
          rw [List.find?_cons_of_pos _ hp] at h
          rw [List.cons_append, List.find?_cons_of_pos _ hp]
          exact h
      | false =>
          have hp' : ¬ p a = true := by simp [hp]
          rw [List.find?_cons_of_neg _ hp'] at h
          rw [List.cons_append, List.find?_cons_of_neg _ hp']
          exact ih h

theorem any_key_iff_isSome (ns : List (Int × NodeAttrs)) (i : Int) :
    ns.any (fun kv => kv.1 == i) = true ↔ (node_attrs ns i).isSome := by
  induction ns with
  | nil => simp [node_attrs_nil]
  | cons kv rest ih =>
      obtain ⟨j, a⟩ := kv
      by_cases hij : j = i
      · subst hij; simp [node_attrs_cons]
      · have hb : (j == i) = false := by simpa using hij
        simp [node_attrs_cons, hij, hb, ih]

theorem ensure_node_of_absent {ns : List (Int × NodeAttrs)} {i : Int}
    (ha : ns.any (fun kv => kv.1 == i) = false) :
    ensure_node ns i = ns ++ [(i, emptyAttrs)] := by
  unfold ensure_node
  rw [ha]
  simp

theorem ensure_node_of_present {ns : List (Int × NodeAttrs)} {i : Int}
    (h : (node_attrs ns i).isSome) : ensure_node ns i = ns := by
  unfold ensure_node
  rw [(any_key_iff_isSome ns i).mpr h]
  simp

theorem node_attrs_ensure_present {ns : List (Int × NodeAttrs)} (i : Int) {j : Int}
    {a : NodeAttrs} (h : node_attrs ns j = some a) :
    node_attrs (ensure_node ns i) j = some a := by
  cases ha : ns.any (fun kv => kv.1 == i) with
  | true =>
      rw [ensure_node_of_present ((any_key_iff_isSome ns i).mp ha)]
      exact h
  | false =>
      rw [ensure_node_of_absent ha]
      unfold node_attrs at h ⊢
      cases hf : List.find? (fun kv => kv.1 == j) ns with
      | none => rw [hf] at h; simp at h
      | some kv => rw [find?_append_some _ _ hf]; rw [hf] at h; exact h

theorem node_attrs_ensure_self_isSome (ns : List (Int × NodeAttrs)) (i : Int) :
    (node_attrs (ensure_node ns i) i).isSome := by
  cases ha : ns.any (fun kv => kv.1 == i) with
  | true =>
      rw [ensure_node_of_present ((any_key_iff_isSome ns i).mp ha)]
      exact (any_key_iff_isSome ns i).mp ha
  | false =>
      rw [ensure_node_of_absent ha]
      unfold node_attrs
      cases hf : List.find? (fun kv => kv.1 == i) ns with
      | none =>
          have hone : List.find? (fun kv => kv.1 == i) [((i : Int), emptyAttrs)] =
              some (i, emptyAttrs) := by simp
          rw [List.find?_append, hf]
          simp
      | some kv => rw [find?_append_some _ _ hf]; rfl

theorem node_attrs_ensure_isSome_mono {ns : List (Int × NodeAttrs)} (i : Int)
    {j : Int} (h : (node_attrs ns j).isSome) :
    (node_attrs (ensure_node ns i) j).isSome := by
  cases hf : node_attrs ns j with
  | none => rw [hf] at h; simp at h
  | some a => rw [node_attrs_ensure_present i hf]; rfl

theorem nkeys_nodup_ensure (ns : List (Int × NodeAttrs)) (i : Int)
    (h : (nkeys ns).Nodup) : (nkeys (ensure_node ns i)).Nodup := by
  cases ha : ns.any (fun kv => kv.1 == i) with
  | true => rw [ensure_node_of_present ((any_key_iff_isSome ns i).mp ha)]; exact h
  | false =>
      rw [ensure_node_of_absent ha]
      have hni : i ∉ nkeys ns := by
        intro hmem
        have hs : (node_attrs ns i).isSome := by
          rcases List.mem_map.mp hmem with ⟨kv, hkv, he⟩
          rw [← (any_key_iff_isSome ns i)]
          refine List.any_eq_true.mpr ⟨kv, hkv, ?_⟩
          simpa using he
        rw [← (any_key_iff_isSome ns i)] at hs
        rw [ha] at hs; exact Bool.noConfusion hs
      unfold nkeys
      rw [List.map_append]
      simp only [List.map_cons, List.map_nil]
      exact List.Nodup.append h (List.nodup_singleton i)
        (by intro x hx hy; simp at hy; subst hy; exact hni hx)

theorem add_edge_nodes_present {g : Graph} {p c : Int} {j : Int} {a : NodeAttrs}
    (h : node_attrs g.nodes j = some a) :
    node_attrs (add_edge g p c).nodes j = some a := by
  unfold add_edge
  exact node_attrs_ensure_present c (node_attrs_ensure_present p h)

theorem add_edge_isSome_mono {g : Graph} (p c : Int) {j : Int}
    (h : (node_attrs g.nodes j).isSome) :
    (node_attrs (add_edge g p c).nodes j).isSome := by
  unfold add_edge
  exact node_attrs_ensure_isSome_mono c (node_attrs_ensure_isSome_mono p h)

theorem add_edge_nodes_eq {g : Graph} {p c : Int}
    (hp : (node_attrs g.nodes p).isSome) (hc : (node_attrs g.nodes c).isSome) :
    (add_edge g p c).nodes = g.nodes := by
  unfold add_edge
  rw [ensure_node_of_present hp, ensure_node_of_present hc]

theorem add_edge_mem_edges {g : Graph} {p c : Int} {e : Int × Int}
    (h : e ∈ (add_edge g p c).edges) : e ∈ g.edges ∨ e = (p, c) := by
  unfold add_edge at h
  simp only [] at h
  cases hm : g.edges.contains (p, c) with
  | true => rw [hm] at h; simp at h; exact Or.inl h
  | false =>
      rw [hm] at h
      simp at h
      rcases h with h | h
      · exact Or.inl h
      · exact Or.inr (by simp [h])

theorem add_edge_nodup {g : Graph} (p c : Int) (h : (nkeys g.nodes).Nodup) :
    (nkeys (add_edge g p c).nodes).Nodup := by
  unfold add_edge
  exact nkeys_nodup_ensure _ c (nkeys_nodup_ensure _ p h)

theorem add_node_level_edges (g : Graph) (i lvl coi : Int) :
    (add_node_level g i lvl coi).edges = g.edges := rfl

theorem add_node_label_edges (g : Graph) (i coi : Int) :
    (add_node_label g i coi).edges = g.edges := rfl

theorem add_node_level_isSome_mono {g : Graph} (i lvl coi : Int) {j : Int}
    (h : (node_attrs g.nodes j).isSome) :
    (node_attrs (add_node_level g i lvl coi).nodes j).isSome := by
  unfold add_node_level
  by_cases hij : j = i
  · subst hij; rw [node_attrs_set_attrs_self]; rfl
  · rw [node_attrs_set_attrs_ne _ _ _ _ hij]; exact h

theorem add_node_level_self_isSome (g : Graph) (i lvl coi : Int) :
    (node_attrs (add_node_level g i lvl coi).nodes i).isSome := by
  unfold add_node_level
  rw [node_attrs_set_attrs_self]; rfl

theorem add_node_label_isSome_mono {g : Graph} (i coi : Int) {j : Int}
    (h : (node_attrs g.nodes j).isSome) :
    (node_attrs (add_node_label g i coi).nodes j).isSome := by
  unfold add_node_label
  by_cases hij : j = i
  · subst hij; rw [node_attrs_set_attrs_self]; rfl
  · rw [node_attrs_set_attrs_ne _ _ _ _ hij]; exact h

theorem add_node_level_nodup {g : Graph} (i lvl coi : Int)
    (h : (nkeys g.nodes).Nodup) :
    (nkeys (add_node_level g i lvl coi).nodes).Nodup := by
  unfold add_node_level
  exact nkeys_nodup_set_attrs _ _ _ h

theorem add_node_label_nodup {g : Graph} (i coi : Int)
    (h : (nkeys g.nodes).Nodup) :
    (nkeys (add_node_label g i coi).nodes).Nodup := by
  unfold add_node_label
  exact nkeys_nodup_set_attrs _ _ _ h

/-! ### Mutual lemmas about `add_nodes_edges` -/

mutual

theorem ane_isSome_mono (g : Graph) (t : FNode) (lvl : Int) {m : Int}
    (h : (node_attrs g.nodes m).isSome) :
    (node_attrs (add_nodes_edges g t lvl).nodes m).isSome := by
  cases t with
  | mk nid ncoi v l r =>
      simp only [add_nodes_edges]
      exact aps_isSome_mono _ nid lvl r
        (aps_isSome_mono _ nid lvl l (add_node_level_isSome_mono _ _ _ h))

theorem aps_isSome_mono (g : Graph) (nid lvl : Int) (s : Option (Int × FNode))
    {m : Int} (h : (node_attrs g.nodes m).isSome) :
    (node_attrs (add_parent_side g nid lvl s).nodes m).isSome := by
  cases s with
  | none => simpa [add_parent_side] using h
  | some kv =>
      obtain ⟨pid, pd⟩ := kv
      simp only [add_parent_side]
      exact ane_isSome_mono _ pd _
        (add_edge_isSome_mono _ _ (add_node_level_isSome_mono _ _ _ h))

end

theorem allIds_mk (i c : Int) (v : Nat) (l r : Option (Int × FNode)) :
    allIds (.mk i c v l r) = i :: (sideIds l ++ sideIds r) := by
  simp [allIds]

theorem sideIds_none : sideIds none = [] := by simp [sideIds]

theorem sideIds_some (pid : Int) (pt : FNode) :
    sideIds (some (pid, pt)) = pid :: allIds pt := by
  simp [sideIds]

theorem subIds_mk (i c : Int) (v : Nat) (l r : Option (Int × FNode)) :
    subIds (.mk i c v l r) = sideIds l ++ sideIds r := rfl

theorem nid_mem_allIds (t : FNode) : t.nid ∈ allIds t := by
  cases t with
  | mk i c v l r => rw [allIds_mk]; exact List.mem_cons_self _ _

theorem subIds_subset_allIds {t : FNode} {n : Int} (h : n ∈ subIds t) :
    n ∈ allIds t := by
  cases t with
  | mk i c v l r =>
      rw [allIds_mk]
      rw [subIds_mk] at h
      exact List.mem_cons_of_mem _ h

mutual

theorem ane_nodup (g : Graph) (t : FNode) (lvl : Int)
    (h : (nkeys g.nodes).Nodup) :
    (nkeys (add_nodes_edges g t lvl).nodes).Nodup := by
  cases t with
  | mk nid ncoi v l r =>
      simp only [add_nodes_edges]
      exact aps_nodup _ nid lvl r (aps_nodup _ nid lvl l (add_node_level_nodup _ _ _ h))

theorem aps_nodup (g : Graph) (nid lvl : Int) (s : Option (Int × FNode))
    (h : (nkeys g.nodes).Nodup) :
    (nkeys (add_parent_side g nid lvl s).nodes).Nodup := by
  cases s with
  | none => simpa [add_parent_side] using h
  | some kv =>
      obtain ⟨pid, pd⟩ := kv
      simp only [add_parent_side]
      exact ane_nodup _ pd _ (add_edge_nodup _ _ (add_node_level_nodup _ _ _ h))

end

mutual

theorem ane_frame (g : Graph) (t : FNode) (lvl : Int) {n : Int}
    (hn : n ∉ allIds t) :
    node_attrs (add_nodes_edges g t lvl).nodes n = node_attrs g.nodes n := by
  cases t with
  | mk nid ncoi v l r =>
      rw [allIds_mk] at hn
      have hne : n ≠ nid := fun he => hn (by rw [he]; exact List.mem_cons_self _ _)
      have hnl : n ∉ sideIds l := fun hm =>
        hn (List.mem_cons_of_mem _ (List.mem_append.mpr (Or.inl hm)))
      have hnr : n ∉ sideIds r := fun hm =>
        hn (List.mem_cons_of_mem _ (List.mem_append.mpr (Or.inr hm)))
      simp only [add_nodes_edges]
      have h1 : (node_attrs (add_node_level g nid lvl ncoi).nodes nid).isSome :=
        add_node_level_self_isSome g nid lvl ncoi
      have h2 : (node_attrs (add_parent_side (add_node_level g nid lvl ncoi) nid lvl l).nodes nid).isSome :=
        aps_isSome_mono _ nid lvl l h1
      rw [aps_frame _ nid lvl r hnr h2, aps_frame _ nid lvl l hnl h1]
      unfold add_node_level
      exact node_attrs_set_attrs_ne _ _ _ _ hne

theorem aps_frame (g : Graph) (nid lvl : Int) (s : Option (Int × FNode)) {n : Int}
    (hn : n ∉ sideIds s) (hnid : (node_attrs g.nodes nid).isSome) :
    node_attrs (add_parent_side g nid lvl s).nodes n = node_attrs g.nodes n := by
  cases s with
  | none => simp [add_parent_side]
  | some kv =>
      obtain ⟨pid, pd⟩ := kv
      rw [sideIds_some] at hn
      have hnp : n ≠ pid := fun he => hn (by rw [he]; exact List.mem_cons_self _ _)
      have hna : n ∉ allIds pd := fun hm => hn (List.mem_cons_of_mem _ hm)
      simp only [add_parent_side]
      have hpid : (node_attrs (add_node_level g pid (lvl - 1) pd.coi).nodes pid).isSome :=
        add_node_level_self_isSome g pid (lvl - 1) pd.coi
      have hnid1 : (node_attrs (add_node_level g pid (lvl - 1) pd.coi).nodes nid).isSome :=
        add_node_level_isSome_mono _ _ _ hnid
      rw [ane_frame _ pd _ hna]
      rw [show (add_edge (add_node_level g pid (lvl - 1) pd.coi) pid nid).nodes =
            (add_node_level g pid (lvl - 1) pd.coi).nodes from
          add_edge_nodes_eq hpid hnid1]
      unfold add_node_level
      exact node_attrs_set_attrs_ne _ _ _ _ hnp

end

mutual

theorem ane_levels (g : Graph) (t : FNode) (lvl : Int) {n : Int} {a : NodeAttrs}
    (h : node_attrs (add_nodes_edges g t lvl).nodes n = some a) :
    node_attrs g.nodes n = some a ∨
      (n = t.nid ∧ a.level = some lvl ∧ a.inbreeding = some t.coi) ∨
      (n ∈ subIds t ∧ ∃ z, a.level = some z ∧ z ≤ lvl - 1) := by
  cases t with
  | mk nid ncoi v l r =>
      simp only [add_nodes_edges] at h
      have h1 : (node_attrs (add_node_level g nid lvl ncoi).nodes nid).isSome :=
        add_node_level_self_isSome g nid lvl ncoi
      have h2 : (node_attrs (add_parent_side (add_node_level g nid lvl ncoi) nid lvl l).nodes nid).isSome :=
        aps_isSome_mono _ nid lvl l h1
      rcases aps_levels _ nid lvl r h2 h with h | ⟨hm, hz⟩
      · rcases aps_levels _ nid lvl l h1 h with h | ⟨hm, hz⟩
        · by_cases hn : n = nid
          · subst hn
            unfold add_node_level at h
            rw [node_attrs_set_attrs_self] at h
            have ha : a = { (node_attrs g.nodes n).getD emptyAttrs with
                level := some lvl, inbreeding := some ncoi } := by
              have := Option.some.inj h
              exact this.symm
            right; left
            refine ⟨by simp [FNode.nid], ?_, ?_⟩
            · rw [ha]
            · rw [ha]; simp [FNode.coi]
          · unfold add_node_level at h
            rw [node_attrs_set_attrs_ne _ _ _ _ hn] at h
            exact Or.inl h
        · right; right
          rw [subIds_mk]
          exact ⟨List.mem_append.mpr (Or.inl hm), hz⟩
      · right; right
        rw [subIds_mk]
        exact ⟨List.mem_append.mpr (Or.inr hm), hz⟩

theorem aps_levels (g : Graph) (nid lvl : Int) (s : Option (Int × FNode))
    {n : Int} {a : NodeAttrs} (hnid : (node_attrs g.nodes nid).isSome)
    (h : node_attrs (add_parent_side g nid lvl s).nodes n = some a) :
    node_attrs g.nodes n = some a ∨
      (n ∈ sideIds s ∧ ∃ z, a.level = some z ∧ z ≤ lvl - 1) := by
  cases s with
  | none => exact Or.inl (by simpa [add_parent_side] using h)
  | some kv =>
      obtain ⟨pid, pd⟩ := kv
      simp only [add_parent_side] at h
      have hpid : (node_attrs (add_node_level g pid (lvl - 1) pd.coi).nodes pid).isSome :=
        add_node_level_self_isSome g pid (lvl - 1) pd.coi
      have hnid1 : (node_attrs (add_node_level g pid (lvl - 1) pd.coi).nodes nid).isSome :=
        add_node_level_isSome_mono _ _ _ hnid
      rcases ane_levels _ pd (lvl - 1) h with h | ⟨he, hl, _⟩ | ⟨hm, z, hz, hle⟩
      · rw [add_edge_nodes_eq hpid hnid1] at h
        by_cases hn : n = pid
        · subst hn
          unfold add_node_level at h
          rw [node_attrs_set_attrs_self] at h
          have ha : a = { (node_attrs g.nodes n).getD emptyAttrs with
              level := some (lvl - 1), inbreeding := some pd.coi } := by
            have := Option.some.inj h
            exact this.symm
          right
          rw [sideIds_some]
          exact ⟨List.mem_cons_self _ _, lvl - 1, by rw [ha], le_refl _⟩
        · unfold add_node_level at h
          rw [node_attrs_set_attrs_ne _ _ _ _ hn] at h
          exact Or.inl h
      · right
        rw [sideIds_some]
        subst he
        exact ⟨List.mem_cons_of_mem _ (nid_mem_allIds pd), lvl - 1, hl, le_refl _⟩
      · right
        rw [sideIds_some]
        refine ⟨List.mem_cons_of_mem _ (subIds_subset_allIds hm), z, hz, ?_⟩
        omega

end

/-- The exact attributes of a tree's root node after `add_nodes_edges`,
provided the root id does not also occur strictly above itself. -/
theorem ane_root_level (g : Graph) (t : FNode) (lvl : Int)
    (hroot : t.nid ∉ subIds t) :
    ∃ a, node_attrs (add_nodes_edges g t lvl).nodes t.nid = some a ∧
      a.level = some lvl ∧ a.inbreeding = some t.coi := by
  cases t with
  | mk nid ncoi v l r =>
      rw [subIds_mk] at hroot
      simp only [FNode.nid] at hroot ⊢
      have hnl : nid ∉ sideIds l := fun hm => hroot (List.mem_append.mpr (Or.inl hm))
      have hnr : nid ∉ sideIds r := fun hm => hroot (List.mem_append.mpr (Or.inr hm))
      simp only [add_nodes_edges]
      have h1 : (node_attrs (add_node_level g nid lvl ncoi).nodes nid).isSome :=
        add_node_level_self_isSome g nid lvl ncoi
      have h2 : (node_attrs (add_parent_side (add_node_level g nid lvl ncoi) nid lvl l).nodes nid).isSome :=
        aps_isSome_mono _ nid lvl l h1
      rw [aps_frame _ nid lvl r hnr h2, aps_frame _ nid lvl l hnl h1]
      unfold add_node_level
      rw [node_attrs_set_attrs_self]
      exact ⟨_, rfl, rfl, by simp [FNode.coi]⟩

theorem treeEdges_mk (i c : Int) (v : Nat) (l r : Option (Int × FNode)) :
    treeEdges (.mk i c v l r) = sideEdges i l ++ sideEdges i r := by
  simp [treeEdges]

mutual

theorem ane_edges (g : Graph) (t : FNode) (lvl : Int) {e : Int × Int}
    (h : e ∈ (add_nodes_edges g t lvl).edges) :
    e ∈ g.edges ∨ e ∈ treeEdges t := by
  cases t with
  | mk nid ncoi v l r =>
      simp only [add_nodes_edges] at h
      rw [treeEdges_mk]
      rcases aps_edges _ nid lvl r h with h | h
      · rcases aps_edges _ nid lvl l h with h | h
        · rw [add_node_level_edges] at h
          exact Or.inl h
        · exact Or.inr (List.mem_append.mpr (Or.inl h))
      · exact Or.inr (List.mem_append.mpr (Or.inr h))

theorem aps_edges (g : Graph) (nid lvl : Int) (s : Option (Int × FNode))
    {e : Int × Int} (h : e ∈ (add_parent_side g nid lvl s).edges) :
    e ∈ g.edges ∨ e ∈ sideEdges nid s := by
  cases s with
  | none => exact Or.inl (by simpa [add_parent_side] using h)
  | some kv =>
      obtain ⟨pid, pd⟩ := kv
      simp only [add_parent_side] at h
      rcases ane_edges _ pd (lvl - 1) h with h | h
      · rcases add_edge_mem_edges h with h | h
        · rw [add_node_level_edges] at h
          exact Or.inl h
        · right; simp [sideEdges, h]
      · right; simp [sideEdges, h]

end

theorem TW_mk {data : Pop} (i c : Int) (v : Nat) (l r : Option (Int × FNode)) :
    TW data (.mk i c v l r) ↔ sideTW data i l ∧ sideTW data i r := by
  simp [TW]

mutual

theorem tw_edges (data : Pop) (t : FNode) (htw : TW data t) (e : Int × Int)
    (he : e ∈ treeEdges t) : DataEdge data e.1 e.2 := by
  cases t with
  | mk i c v l r =>
      rw [treeEdges_mk] at he
      rw [TW_mk] at htw
      rcases List.mem_append.mp he with he | he
      · exact stw_edges data i l htw.1 e he
      · exact stw_edges data i r htw.2 e he

theorem stw_edges (data : Pop) (c : Int) (s : Option (Int × FNode))
    (hs : sideTW data c s) (e : Int × Int) (he : e ∈ sideEdges c s) :
    DataEdge data e.1 e.2 := by
  cases s with
  | none => simp [sideEdges] at he
  | some kv =>
      obtain ⟨pid, pt⟩ := kv
      simp only [sideEdges] at he
      obtain ⟨hde, _, _, htw⟩ := hs
      rcases List.mem_cons.mp he with he | he
      · subst he; exact hde
      · exact tw_edges data pt htw e he

end

mutual

theorem tw_rank_all (data : Pop) (f : Int → Nat) (hR : Ranked data f)
    (t : FNode) (htw : TW data t) (j : Int) (hj : j ∈ allIds t) :
    f t.nid ≤ f j := by
  cases t with
  | mk i c v l r =>
      rw [allIds_mk] at hj
      rw [TW_mk] at htw
      simp only [FNode.nid]
      rcases List.mem_cons.mp hj with hj | hj
      · subst hj; exact le_refl _
      · rcases List.mem_append.mp hj with hj | hj
        · exact le_of_lt (stw_rank data f hR i l htw.1 j hj)
        · exact le_of_lt (stw_rank data f hR i r htw.2 j hj)

theorem stw_rank (data : Pop) (f : Int → Nat) (hR : Ranked data f)
    (c : Int) (s : Option (Int × FNode)) (hs : sideTW data c s) (j : Int)
    (hj : j ∈ sideIds s) : f c < f j := by
  cases s with
  | none => simp [sideIds_none] at hj
  | some kv =>
      obtain ⟨pid, pt⟩ := kv
      rw [sideIds_some] at hj
      obtain ⟨hde, hid, _, htw⟩ := hs
      have hcp : f c < f pid := hR pid c hde
      rcases List.mem_cons.mp hj with hj | hj
      · subst hj; exact hcp
      · have := tw_rank_all data f hR pt htw j hj
        rw [hid] at this
        exact lt_of_lt_of_le hcp this

end

/-- The root id of a well-formed tree never reappears strictly above
itself when the parent relation is ranked. -/
theorem tw_root_not_sub {data : Pop} {f : Int → Nat} (hR : Ranked data f)
    {t : FNode} (htw : TW data t) : t.nid ∉ subIds t := by
  intro hmem
  cases t with
  | mk i c v l r =>
      rw [subIds_mk] at hmem
      rw [TW_mk] at htw
      simp only [FNode.nid] at hmem
      rcases List.mem_append.mp hmem with hm | hm
      · exact lt_irrefl _ (stw_rank data f hR i l htw.1 i hm)
      · exact lt_irrefl _ (stw_rank data f hR i r htw.2 i hm)

theorem except_bind_ok {α β : Type} {x : Except Unit α} {f : α → Except Unit β}
    {b : β} (h : (x >>= f) = .ok b) : ∃ a, x = .ok a ∧ f a = .ok b := by
  cases x with
  | error e => simp [Bind.bind, Except.bind] at h
  | ok a => exact ⟨a, rfl, by simpa [Bind.bind, Except.bind] using h⟩

theorem fetch_parent_none {data : Pop} {i : Int} (h : pylookup data i = none) :
    fetch_parent data i = none := by
  unfold fetch_parent
  rw [h]

theorem fetch_parent_some {data : Pop} {i : Int} {r : Trout}
    (h : pylookup data i = some r) :
    fetch_parent data i = some (r.id, r.coi, left_parent_of r, right_parent_of r) := by
  unfold fetch_parent
  rw [h]

theorem left_parent_of_eq_some {r : Trout} {a : Int}
    (h : left_parent_of r = some a) : ∃ rest, r.parents = some (a :: rest) := by
  unfold left_parent_of at h
  cases hp : r.parents with
  | none => rw [hp] at h; simp at h
  | some ps =>
      cases ps with
      | nil => rw [hp] at h; simp at h
      | cons x rest =>
          rw [hp] at h
          simp at h
          subst h
          exact ⟨rest, rfl⟩

theorem right_parent_of_eq_some {r : Trout} {b : Int}
    (h : right_parent_of r = some b) :
    ∃ a rest, r.parents = some (a :: b :: rest) := by
  unfold right_parent_of at h
  cases hp : r.parents with
  | none => rw [hp] at h; simp at h
  | some ps =>
      match ps with
      | [] => rw [hp] at h; simp at h
      | [x] => rw [hp] at h; simp at h
      | x :: y :: rest =>
          rw [hp] at h
          simp at h
          subst h
          exact ⟨x, rest, rfl⟩

theorem mem_tokens_of_left {r : Trout} {a : Int}
    (h : left_parent_of r = some a) : a ∈ tokensOf r := by
  obtain ⟨rest, hp⟩ := left_parent_of_eq_some h
  simp [tokensOf, hp]

theorem mem_tokens_of_right {r : Trout} {b : Int}
    (h : right_parent_of r = some b) : b ∈ tokensOf r := by
  obtain ⟨a, rest, hp⟩ := right_parent_of_eq_some h
  simp [tokensOf, hp]

/-- Structure of a successful `build_family_tree` result: the returned
dict is keyed by the record's `id` field, the node carries the record's
`id` and `coi`, and the whole tree is well-formed over the population. -/
theorem build_tw : ∀ (fuel : Nat) (data : Pop) (i : Int) (lvl : Nat)
    (k : Int) (t : FNode), WellKeyed data →
    build_family_tree data i lvl fuel = .ok (some (k, t)) →
    ∃ r, pylookup data i = some r ∧ k = r.id ∧ t.nid = r.id ∧
      t.coi = r.coi ∧ TW data t := by
  intro fuel
  induction fuel with
  | zero => intro data i lvl k t _ h; simp [build_family_tree] at h
  | succ fuel ih =>
      intro data i lvl k t hW h
      rw [build_family_tree] at h
      cases hpl : pylookup data i with
      | none => rw [fetch_parent_none hpl] at h; simp at h
      | some r =>
          rw [fetch_parent_some hpl] at h
          simp only [] at h
          cases hl : (if pytruthy (left_parent_of r) = true then
              build_family_tree data ((left_parent_of r).getD 0) (lvl + 1) fuel
              else .ok none) with
          | error e => rw [hl] at h; simp at h
          | ok lval =>
          rw [hl] at h
          simp only [] at h
          cases hr : (if pytruthy (right_parent_of r) = true then
              build_family_tree data ((right_parent_of r).getD 0) (lvl + 1) fuel
              else .ok none) with
          | error e => rw [hr] at h; simp at h
          | ok rval =>
          rw [hr] at h
          simp only [Except.ok.injEq, Option.some.injEq, Prod.mk.injEq] at h
          obtain ⟨hk, ht⟩ := h
          have hmem : (i, r) ∈ data := pylookup_mem_of_some hpl
          have hrid : r.id = i := hW (i, r) hmem
          refine ⟨r, rfl, hk.symm, ?_, ?_, ?_⟩
          · rw [← ht]; simp [FNode.nid]
          · rw [← ht]; simp [FNode.coi]
          · rw [← ht]
            rw [TW_mk]
            constructor
            · -- left slot
              cases hlpo : left_parent_of r with
              | none =>
                  rw [hlpo] at hl
                  simp [pytruthy] at hl
                  rw [← hl]
                  simp [sideTW]
              | some a =>
                  rw [hlpo] at hl
                  by_cases ha : a = 0
                  · subst ha
                    simp [pytruthy] at hl
                    rw [← hl]
                    simp [sideTW]
                  · have hat : pytruthy (some a) = true := by simp [pytruthy, ha]
                    rw [hat] at hl
                    simp only [if_pos] at hl
                    cases lval with
                    | none => simp [sideTW]
                    | some kt =>
                        obtain ⟨k', t'⟩ := kt
                        have hga : (Option.getD (some a) 0) = a := rfl
                        rw [hga] at hl
                        obtain ⟨r', hpl', hk', hnid', hcoi', htw'⟩ :=
                          ih data a (lvl + 1) k' t' hW hl
                        have hrid' : r'.id = a := hW _ (pylookup_mem_of_some hpl')
                        simp only [sideTW]
                        refine ⟨⟨r, ?_, ?_⟩, ?_, ⟨r', ?_, hcoi'⟩, htw'⟩
                        · rw [← hrid] at hmem; exact hmem
                        · rw [hk', hrid']
                          exact mem_tokens_of_left hlpo
                        · rw [hnid', hk']
                        · rw [hk', hrid']
                          exact pylookup_mem_of_some hpl'
            · -- right slot
              cases hrpo : right_parent_of r with
              | none =>
                  rw [hrpo] at hr
                  simp [pytruthy] at hr
                  rw [← hr]
                  simp [sideTW]
              | some b =>
                  rw [hrpo] at hr
                  by_cases hb : b = 0
                  · subst hb
                    simp [pytruthy] at hr
                    rw [← hr]
                    simp [sideTW]
                  · have hbt : pytruthy (some b) = true := by simp [pytruthy, hb]
                    rw [hbt] at hr
                    simp only [if_pos] at hr
                    cases rval with
                    | none => simp [sideTW]
                    | some kt =>
                        obtain ⟨k', t'⟩ := kt
                        have hgb : (Option.getD (some b) 0) = b := rfl
                        rw [hgb] at hr
                        obtain ⟨r', hpl', hk', hnid', hcoi', htw'⟩ :=
                          ih data b (lvl + 1) k' t' hW hr
                        have hrid' : r'.id = b := hW _ (pylookup_mem_of_some hpl')
                        simp only [sideTW]
                        refine ⟨⟨r, ?_, ?_⟩, ?_, ⟨r', ?_, hcoi'⟩, htw'⟩
                        · rw [← hrid] at hmem; exact hmem
                        · rw [hk', hrid']
                          exact mem_tokens_of_right hrpo
                        · rw [hnid', hk']
                        · rw [hk', hrid']
                          exact pylookup_mem_of_some hpl'

theorem fdd_mem {data : Pop} {pid : Int} {c : Int × Int}
    (h : c ∈ fetch_direct_descendants data pid) :
    DataEdge data pid c.1 ∧ ∃ r, (c.1, r) ∈ data ∧ c.2 = r.coi := by
  unfold fetch_direct_descendants at h
  rcases List.mem_filterMap.mp h with ⟨kv, hkv, he⟩
  by_cases hc : pytruthyL kv.2.parents && (tokensOf kv.2).contains pid
  · rw [if_pos hc] at he
    have hp : pid ∈ tokensOf kv.2 := by
      have := (Bool.and_eq_true _ _).mp hc
      simpa using this.2
    have hc1 : c.1 = kv.1 := by
      have := Option.some.inj he
      rw [← this]
    have hc2 : c.2 = kv.2.coi := by
      have := Option.some.inj he
      rw [← this]
    constructor
    · refine ⟨kv.2, ?_, hp⟩
      rw [hc1]
      exact hkv
    · refine ⟨kv.2, ?_, hc2⟩
      rw [hc1]
      exact hkv
  · rw [if_neg hc] at he
    exact absurd he (by simp)

theorem DTW_mk {data : Pop} (pid : Int) (entries : List (Int × Int × DTree)) :
    DTW data pid (.mk entries) ↔ DTWl data pid entries := by
  simp [DTW]

theorem dtEdges_mk (pid : Int) (entries : List (Int × Int × DTree)) :
    dtEdges pid (.mk entries) = dtEdgesL pid entries := by
  simp [dtEdges]

mutual

theorem dtw_edges (data : Pop) (pid : Int) (dt : DTree) (hw : DTW data pid dt)
    (e : Int × Int) (he : e ∈ dtEdges pid dt) : DataEdge data e.1 e.2 := by
  cases dt with
  | mk entries =>
      rw [dtEdges_mk] at he
      rw [DTW_mk] at hw
      exact dtwl_edges data pid entries hw e he

theorem dtwl_edges (data : Pop) (pid : Int) (entries : List (Int × Int × DTree))
    (hw : DTWl data pid entries) (e : Int × Int) (he : e ∈ dtEdgesL pid entries) :
    DataEdge data e.1 e.2 := by
  cases entries with
  | nil => simp [dtEdgesL] at he
  | cons kv rest =>
      obtain ⟨cid, ccoi, sub⟩ := kv
      simp only [dtEdgesL] at he
      obtain ⟨hde, _, hsub, hrest⟩ := hw
      rcases List.mem_cons.mp he with he | he
      · subst he; exact hde
      · rcases List.mem_append.mp he with he | he
        · exact dtw_edges data cid sub hsub e he
        · exact dtwl_edges data pid rest hrest e he

end

mutual

theorem adtg_edges (g : Graph) (pid : Int) (dt : DTree) {e : Int × Int}
    (h : e ∈ (add_descendants_to_graph g pid dt).edges) :
    e ∈ g.edges ∨ e ∈ dtEdges pid dt := by
  cases dt with
  | mk entries =>
      simp only [add_descendants_to_graph] at h
      rw [dtEdges_mk]
      exact adtg_edges_l g pid entries h

theorem adtg_edges_l (g : Graph) (pid : Int) (entries : List (Int × Int × DTree))
    {e : Int × Int} (h : e ∈ (add_desc_entries g pid entries).edges) :
    e ∈ g.edges ∨ e ∈ dtEdgesL pid entries := by
  cases entries with
  | nil => exact Or.inl (by simpa [add_desc_entries] using h)
  | cons kv rest =>
      obtain ⟨cid, ccoi, sub⟩ := kv
      simp only [add_desc_entries] at h
      rcases adtg_edges_l _ pid rest h with h | h
      · by_cases hne : !sub.entries.isEmpty
        · rw [if_pos hne] at h
          rcases adtg_edges _ cid sub h with h | h
          · rcases add_edge_mem_edges h with h | h
            · rw [add_node_label_edges] at h
              exact Or.inl h
            · right; simp [dtEdgesL, h]
          · right; simp [dtEdgesL, h]
        · rw [if_neg hne] at h
          rcases add_edge_mem_edges h with h | h
          · rw [add_node_label_edges] at h
            exact Or.inl h
          · right; simp [dtEdgesL, h]
      · right; simp only [dtEdgesL]
        exact List.mem_cons_of_mem _ (List.mem_append.mpr (Or.inr h))

end

mutual

theorem adtg_nodup (g : Graph) (pid : Int) (dt : DTree)
    (h : (nkeys g.nodes).Nodup) :
    (nkeys (add_descendants_to_graph g pid dt).nodes).Nodup := by
  cases dt with
  | mk entries =>
      simp only [add_descendants_to_graph]
      exact adtg_nodup_l g pid entries h

theorem adtg_nodup_l (g : Graph) (pid : Int) (entries : List (Int × Int × DTree))
    (h : (nkeys g.nodes).Nodup) :
    (nkeys (add_desc_entries g pid entries).nodes).Nodup := by
  cases entries with
  | nil => simpa [add_desc_entries] using h
  | cons kv rest =>
      obtain ⟨cid, ccoi, sub⟩ := kv
      simp only [add_desc_entries]
      have h1 : (nkeys (add_edge (add_node_label g cid ccoi) pid cid).nodes).Nodup :=
        add_edge_nodup _ _ (add_node_label_nodup _ _ h)
      by_cases hne : !sub.entries.isEmpty
      · rw [if_pos hne]
        exact adtg_nodup_l _ pid rest (adtg_nodup _ cid sub h1)
      · rw [if_neg hne]
        exact adtg_nodup_l _ pid rest h1

end

/-- Descendant trees built by `build_full_descendant_tree` are
well-formed over the population. -/
theorem bfdt_dtw : ∀ (fuel : Nat) (data : Pop) (i : Int) (dt : DTree),
    build_full_descendant_tree data i fuel = .ok dt → DTW data i dt := by
  intro fuel
  induction fuel with
  | zero => intro data i dt h; simp [build_full_descendant_tree] at h
  | succ fuel ih =>
      intro data i dt h
      rw [build_full_descendant_tree] at h
      have hds : ∀ c ∈ fetch_direct_descendants data i,
          DataEdge data i c.1 ∧ ∃ r, (c.1, r) ∈ data ∧ c.2 = r.coi :=
        fun c hc => fdd_mem hc
      revert h
      generalize hds2 : fetch_direct_descendants data i = ds
      rw [hds2] at hds
      intro h
      cases hdl : descend_list
          (fun cid => build_full_descendant_tree data cid fuel) ds with
      | error e => rw [hdl] at h; simp [Except.map] at h
      | ok entries =>
          rw [hdl] at h
          simp only [Except.map, Except.ok.injEq] at h
          subst h
          rw [DTW_mk]
          clear hds2
          induction ds generalizing entries with
          | nil =>
              simp [descend_list] at hdl
              subst hdl
              simp [DTWl]
          | cons c rest ihl =>
              obtain ⟨cid, ccoi⟩ := c
              simp only [descend_list] at hdl
              obtain ⟨sub, hsub, hdl⟩ := except_bind_ok hdl
              obtain ⟨tl, htl, hdl⟩ := except_bind_ok hdl
              simp only [Except.ok.injEq] at hdl
              subst hdl
              simp only [DTWl]
              refine ⟨?_, ?_, ih data cid sub hsub, ?_⟩
              · exact (hds (cid, ccoi) (List.mem_cons_self _ _)).1
              · exact (hds (cid, ccoi) (List.mem_cons_self _ _)).2
              · exact ihl (fun c hc => hds c (List.mem_cons_of_mem _ hc)) tl htl

/-! ### Decomposition of `query_graph` per mode -/

theorem qg_anc {data : Pop} {rootId : Int} {fuel : Nat} {g : Graph}
    (hq : query_graph data rootId .ancestors fuel = .ok g) :
    ∃ t, build_family_tree data rootId 0 fuel = .ok (some (rootId, t)) ∧
      g = add_nodes_edges newDiGraph t 0 := by
  unfold query_graph at hq
  simp only [] at hq
  cases hb : build_family_tree data rootId 0 fuel with
  | error e => rw [hb] at hq; simp at hq
  | ok o =>
      rw [hb] at hq
      cases o with
      | none => simp at hq
      | some kt =>
          obtain ⟨k, t⟩ := kt
          simp only [] at hq
          by_cases hk : k = rootId
          · rw [if_pos hk] at hq
            subst hk
            exact ⟨t, rfl, (Except.ok.inj hq).symm⟩
          · rw [if_neg hk] at hq
            simp at hq

theorem qg_desc {data : Pop} {rootId : Int} {fuel : Nat} {g : Graph}
    (hq : query_graph data rootId .descendants fuel = .ok g) :
    ∃ dt, build_full_descendant_tree data rootId fuel = .ok dt ∧
      g = add_descendants_to_graph newDiGraph rootId dt := by
  unfold query_graph at hq
  simp only [] at hq
  cases hb : build_full_descendant_tree data rootId fuel with
  | error e => rw [hb] at hq; simp at hq
  | ok dt =>
      rw [hb] at hq
      exact ⟨dt, rfl, (Except.ok.inj hq).symm⟩

theorem qg_full {data : Pop} {rootId : Int} {fuel : Nat} {g : Graph}
    (hq : query_graph data rootId .full_tree fuel = .ok g) :
    ∃ t dt, build_family_tree data rootId 0 fuel = .ok (some (rootId, t)) ∧
      build_full_descendant_tree data rootId fuel = .ok dt ∧
      g = add_descendants_to_graph (add_nodes_edges newDiGraph t 0) rootId dt := by
  unfold query_graph at hq
  simp only [] at hq
  cases hb : build_family_tree data rootId 0 fuel with
  | error e => rw [hb] at hq; simp at hq
  | ok o =>
      rw [hb] at hq
      cases o with
      | none => simp at hq
      | some kt =>
          obtain ⟨k, t⟩ := kt
          simp only [] at hq
          by_cases hk : k = rootId
          · rw [if_pos hk] at hq
            subst hk
            cases hd : build_full_descendant_tree data k fuel with
            | error e => rw [hd] at hq; simp at hq
            | ok dt =>
                rw [hd] at hq
                exact ⟨t, dt, rfl, rfl, (Except.ok.inj hq).symm⟩
          · rw [if_neg hk] at hq
            simp at hq

theorem newDiGraph_edges_empty {e : Int × Int} (h : e ∈ newDiGraph.edges) : False := by
  simp [newDiGraph] at h

/-- Every edge of every graph `query_graph` returns comes from the
population's parent relation. -/
theorem qg_edges_dataEdge {data : Pop} {rootId : Int} {mode : Mode} {fuel : Nat}
    {g : Graph} (hW : WellKeyed data)
    (hq : query_graph data rootId mode fuel = .ok g) :
    ∀ e : Int × Int, e ∈ g.edges → DataEdge data e.1 e.2 := by
  cases mode with
  | ancestors =>
      obtain ⟨t, hb, hg⟩ := qg_anc hq
      obtain ⟨r, _, _, _, _, htw⟩ := build_tw fuel data rootId 0 rootId t hW hb
      subst hg
      intro e he
      rcases ane_edges _ _ _ he with he | he
      · exact absurd he newDiGraph_edges_empty
      · exact tw_edges data t htw e he
  | descendants =>
      obtain ⟨dt, hb, hg⟩ := qg_desc hq
      have hdtw := bfdt_dtw fuel data rootId dt hb
      subst hg
      intro e he
      rcases adtg_edges _ _ _ he with he | he
      · exact absurd he newDiGraph_edges_empty
      · exact dtw_edges data rootId dt hdtw e he
  | full_tree =>
      obtain ⟨t, dt, hb, hd, hg⟩ := qg_full hq
      obtain ⟨r, _, _, _, _, htw⟩ := build_tw fuel data rootId 0 rootId t hW hb
      have hdtw := bfdt_dtw fuel data rootId dt hd
      subst hg
      intro e he
      rcases adtg_edges _ _ _ he with he | he
      · rcases ane_edges _ _ _ he with he | he
        · exact absurd he newDiGraph_edges_empty
        · exact tw_edges data t htw e he
      · exact dtw_edges data rootId dt hdtw e he

theorem ranked_of_checkB {data : Pop} {f : Int → Nat}
    (h : ranked_checkB data f = true) : Ranked data f := by
  rintro p c ⟨r, hm, hp⟩
  have h1 := List.all_eq_true.mp h (c, r) hm
  have h2 := List.all_eq_true.mp h1 p hp
  simpa using h2

/-! ## Claim theorems -/

/-- C2: for every population, root, mode and recursion budget, the
assembled graph's node map contains each id at most once — `add_node`
merges attributes of an existing id instead of duplicating it, so the key
list of the node map is duplicate-free. -/
theorem c2_nodes_deduplicated (data : Pop) (rootId : Int) (mode : Mode)
    (fuel : Nat) (g : Graph) (hq : query_graph data rootId mode fuel = .ok g) :
    (nkeys g.nodes).Nodup := by
  have hnil : (nkeys newDiGraph.nodes).Nodup := by simp [newDiGraph, nkeys]
  cases mode with
  | ancestors =>
      obtain ⟨t, _, hg⟩ := qg_anc hq
      subst hg
      exact ane_nodup _ t 0 hnil
  | descendants =>
      obtain ⟨dt, _, hg⟩ := qg_desc hq
      subst hg
      exact adtg_nodup _ rootId dt hnil
  | full_tree =>
      obtain ⟨t, dt, _, _, hg⟩ := qg_full hq
      subst hg
      exact adtg_nodup _ rootId dt (ane_nodup _ t 0 hnil)

/-- Witness for C2 at the spec's example: the ancestor graph rooted at 5
has exactly the five nodes 1..5, each id once. -/
theorem c2_nodes_deduplicated_witness :
    query_graph exPop 5 .ancestors 10 = .ok exAncGraph ∧
    nkeys exAncGraph.nodes = [5, 3, 1, 2, 4] ∧
    (nkeys exAncGraph.nodes).Nodup :=
  ⟨rfl, rfl, c2_nodes_deduplicated exPop 5 .ancestors 10 exAncGraph rfl⟩

/-- C3 (amended): for every well-keyed population whose parent relation
admits a rank function (the §3 acyclicity invariant) and every mode, the
assembled graph is acyclic, because every assembled edge comes from the
parent relation.  (The assembler itself checks nothing — see the
counterexample.) -/
theorem c3_assembled_acyclic (data : Pop) (f : Int → Nat) (rootId : Int)
    (mode : Mode) (fuel : Nat) (g : Graph) (hW : WellKeyed data)
    (hR : Ranked data f) (hq : query_graph data rootId mode fuel = .ok g) :
    EdgesAcyclic g := by
  have hsub := qg_edges_dataEdge hW hq
  intro n hc
  have hmono : ∀ a b, (fun p c => (p, c) ∈ g.edges) a b → DataEdge data a b :=
    fun a b hab => hsub (a, b) hab
  exact EdgeTC.no_cycle (fun a b hd => hR a b hd) n (hc.mono hmono)

/-- Witness for C3 at the spec's example population in `full_tree` mode. -/
theorem c3_assembled_acyclic_witness : EdgesAcyclic exAncGraph :=
  c3_assembled_acyclic exPop exRank 5 .full_tree 10 exAncGraph (by decide)
    (ranked_of_checkB (by decide)) rfl

/-- Counterexample for C3 as stated: the assembler asserts nothing.  Fed
a descendant tree that closes a cycle, `add_descendants_to_graph` returns
a cyclic graph normally instead of failing with `InvariantViolation` (no
such failure exists anywhere in the code). -/
theorem c3_counterexample :
    (add_descendants_to_graph newDiGraph 1 cycDT).edges = [(1, 2), (2, 1)] ∧
    ¬ EdgesAcyclic (add_descendants_to_graph newDiGraph 1 cycDT) := by
  have he : (add_descendants_to_graph newDiGraph 1 cycDT).edges = [(1, 2), (2, 1)] := rfl
  refine ⟨he, ?_⟩
  intro h
  refine h 1 (@EdgeTC.step _ 1 2 1 ?_ (EdgeTC.base ?_)) <;> rw [he] <;> simp

/-- C4 (amended): in ancestor mode the queried root carries level 0 and
every other node of the assembled graph carries a strictly negative
level; descendant traversal attaches no level at all (see the
counterexample). -/
theorem c4_ancestor_levels (data : Pop) (f : Int → Nat) (rootId : Int)
    (fuel : Nat) (g : Graph) (hW : WellKeyed data) (hR : Ranked data f)
    (hq : query_graph data rootId .ancestors fuel = .ok g) :
    (∃ a, node_attrs g.nodes rootId = some a ∧ a.level = some 0) ∧
    (∀ n a, node_attrs g.nodes n = some a → n ≠ rootId →
      ∃ z, a.level = some z ∧ z < 0) := by
  obtain ⟨t, hb, hg⟩ := qg_anc hq
  obtain ⟨r, hpl, hkr, hnid, hcoi, htw⟩ := build_tw fuel data rootId 0 rootId t hW hb
  have htnid : t.nid = rootId := by rw [hnid, ← hkr]
  have hroot : t.nid ∉ subIds t := tw_root_not_sub hR htw
  subst hg
  constructor
  · obtain ⟨a, ha, hl, _⟩ := ane_root_level newDiGraph t 0 hroot
    rw [htnid] at ha
    exact ⟨a, ha, hl⟩
  · intro n a hna hne
    rcases ane_levels _ _ _ hna with h | ⟨he, hl, _⟩ | ⟨_, z, hz, hle⟩
    · simp [newDiGraph, node_attrs_nil] at h
    · rw [htnid] at he
      exact absurd he hne
    · exact ⟨z, hz, by omega⟩

/-- Witness for C4's amended ancestor-level statement at the example. -/
theorem c4_ancestor_levels_witness :
    (∃ a, node_attrs exAncGraph.nodes 5 = some a ∧ a.level = some 0) ∧
    (∃ z a, node_attrs exAncGraph.nodes 1 = some a ∧ a.level = some z ∧ z < 0) := by
  have h := c4_ancestor_levels exPop exRank 5 10 exAncGraph (by decide)
    (ranked_of_checkB (by decide)) rfl
  refine ⟨h.1, ?_⟩
  obtain ⟨z, hz, hlt⟩ := h.2 1 ⟨some (-2), some 0, none⟩ rfl (by decide)
  exact ⟨z, ⟨some (-2), some 0, none⟩, rfl, hz, hlt⟩

/-- Counterexample for C4 as stated: in `descendants` mode no node of the
assembled graph carries a level — neither the root (claimed level 0) nor
the descendant node (claimed positive level). -/
theorem c4_counterexample :
    query_graph desPop 1 .descendants 10 = .ok desGraph ∧
    node_attrs desGraph.nodes 2 = some ⟨none, some 0, some "Trout #2"⟩ ∧
    node_attrs desGraph.nodes 1 = some ⟨none, none, none⟩ :=
  ⟨rfl, rfl, rfl⟩

/-- Counterexample for C1 as stated: a founder whose record carries
`coi = 1` gets inbreeding 1 attached, while its ancestor multiset is
empty, so the spec's formula gives 0. -/
theorem c1_counterexample :
    query_graph coiPop 1 .ancestors 10 = .ok ⟨[(1, ⟨some 0, some 1, none⟩)], []⟩ ∧
    specCoefficient coiPop 1 10 = 0 ∧ (1 : Int) ≠ 0 :=
  ⟨rfl, by decide, by decide⟩

/-- `build_family_tree` on a missing root id returns Python `None` at the
first step (no structured error). -/
theorem bft_missing {data : Pop} {i : Int} (lvl fuel : Nat)
    (h : pylookup data i = none) :
    build_family_tree data i lvl (fuel + 1) = .ok none := by
  rw [build_family_tree, fetch_parent_none h]

/-- C5 (amended): a root id absent from the population makes
`build_family_tree` return `None`; the route then subscripts `None` and
dies with a `TypeError` in `ancestors` and `full_tree` modes — there is
no structured `NotFound` result. -/
theorem c5_missing_root_type_error (data : Pop) (rootId : Int) (fuel : Nat)
    (h : pylookup data rootId = none) :
    query_graph data rootId .ancestors (fuel + 1) = .error .typeError ∧
    query_graph data rootId .full_tree (fuel + 1) = .error .typeError := by
  constructor
  · show query_graph data rootId .ancestors (fuel + 1) = .error .typeError
    unfold query_graph
    rw [bft_missing 0 fuel h]
  · show query_graph data rootId .full_tree (fuel + 1) = .error .typeError
    unfold query_graph
    rw [bft_missing 0 fuel h]

/-- Counterexample for C5 as stated: querying the empty population for
root 1 yields a `TypeError` (not a `NotFound`) in ancestor mode, and in
descendants mode it succeeds with an empty graph instead of failing. -/
theorem c5_counterexample :
    build_family_tree ([] : Pop) 1 0 10 = .ok none ∧
    query_graph ([] : Pop) 1 .ancestors 10 = .error .typeError ∧
    query_graph ([] : Pop) 1 .descendants 10 = .ok ⟨[], []⟩ :=
  ⟨rfl, rfl, rfl⟩

/-- Witness for C5's amended statement at a concrete missing root. -/
theorem c5_missing_root_witness :
    pylookup ([] : Pop) 7 = none ∧
    query_graph ([] : Pop) 7 .ancestors 10 = .error .typeError ∧
    query_graph ([] : Pop) 7 .full_tree 10 = .error .typeError :=
  ⟨rfl, (c5_missing_root_type_error ([] : Pop) 7 9 rfl).1,
   (c5_missing_root_type_error ([] : Pop) 7 9 rfl).2⟩

/-- C6 (amended): on the cyclic two-individual population both the
ancestor builder and the descendant builder exhaust every recursion
budget (Python: unbounded recursion ending in `RecursionError`); no
`CyclicPedigree` detection exists and no partial result is ever
produced. -/
theorem c6_cycle_diverges (fuel : Nat) :
    ∀ lvl : Nat,
      build_family_tree cycPop 1 lvl fuel = .error () ∧
      build_family_tree cycPop 2 lvl fuel = .error () ∧
      build_full_descendant_tree cycPop 1 fuel = .error () ∧
      build_full_descendant_tree cycPop 2 fuel = .error () := by
  induction fuel with
  | zero => intro lvl; exact ⟨rfl, rfl, rfl, rfl⟩
  | succ fuel ih =>
      intro lvl
      obtain ⟨h1, h2, h3, h4⟩ := ih (lvl + 1)
      refine ⟨?_, ?_, ?_, ?_⟩
      · rw [build_family_tree,
          fetch_parent_some (show pylookup cycPop 1 = some ⟨1, 0, some [2, 2]⟩ from rfl)]
        simp only []
        rw [show left_parent_of ⟨1, 0, some [2, 2]⟩ = some 2 from rfl]
        rw [show pytruthy (some 2) = true from rfl]
        simp only [if_pos]
        rw [show (Option.getD (some (2 : Int)) 0) = 2 from rfl, h2]
      · rw [build_family_tree,
          fetch_parent_some (show pylookup cycPop 2 = some ⟨2, 0, some [1, 1]⟩ from rfl)]
        simp only []
        rw [show left_parent_of ⟨2, 0, some [1, 1]⟩ = some 1 from rfl]
        rw [show pytruthy (some 1) = true from rfl]
        simp only [if_pos]
        rw [show (Option.getD (some (1 : Int)) 0) = 1 from rfl, h1]
      · rw [build_full_descendant_tree]
        rw [show fetch_direct_descendants cycPop 1 = [(2, 0)] from rfl]
        simp only [descend_list]
        rw [h4]
        rfl
      · rw [build_full_descendant_tree]
        rw [show fetch_direct_descendants cycPop 2 = [(1, 0)] from rfl]
        simp only [descend_list]
        rw [h3]
        rfl

/-- Counterexample for C6 as stated: at a concrete recursion budget the
cyclic population produces a `RecursionError`-style exhaustion from both
builders — no `CyclicPedigree` value exists anywhere in the code. -/
theorem c6_counterexample :
    build_family_tree cycPop 1 0 40 = .error () ∧
    build_full_descendant_tree cycPop 1 40 = .error () :=
  ⟨rfl, rfl⟩

theorem fetch_parentS_pop (data : Pop) (i : Int) :
    (fetch_parentS data i).2 = data := by
  unfold fetch_parentS
  cases h : pylookup data i with
  | none => rfl
  | some t => rfl

theorem fetch_direct_descendantsS_pop (data : Pop) (i : Int) :
    (fetch_direct_descendantsS data i).2 = data := rfl

theorem bftS_pop : ∀ (fuel : Nat) (data : Pop) (i : Int) (lvl : Nat),
    (build_family_treeS data i lvl fuel).2 = data := by
  intro fuel
  induction fuel with
  | zero => intro data i lvl; rfl
  | succ fuel ih =>
      intro data i lvl
      rw [build_family_treeS]
      cases hfp : fetch_parentS data i with
      | mk o d =>
          have hd : d = data := by
            have := fetch_parentS_pop data i
            rw [hfp] at this
            exact this
          subst hd
          cases o with
          | none => rfl
          | some q =>
              obtain ⟨ii, cc, lp, rp⟩ := q
              simp only []
              cases hli : (if pytruthy lp = true then
                  build_family_treeS d (lp.getD 0) (lvl + 1) fuel
                  else (.ok none, d)) with
              | mk lres d2 =>
                  have hd2 : d2 = d := by
                    by_cases hpt : pytruthy lp = true
                    · rw [if_pos hpt] at hli
                      have := ih d (lp.getD 0) (lvl + 1)
                      rw [hli] at this
                      exact this
                    · rw [if_neg hpt] at hli
                      exact (Prod.mk.inj hli).2.symm
                  subst hd2
                  cases lres with
                  | error e => rfl
                  | ok l =>
                      simp only []
                      cases hri : (if pytruthy rp = true then
                          build_family_treeS d2 (rp.getD 0) (lvl + 1) fuel
                          else (.ok none, d2)) with
                      | mk rres d3 =>
                          have hd3 : d3 = d2 := by
                            by_cases hpt : pytruthy rp = true
                            · rw [if_pos hpt] at hri
                              have := ih d2 (rp.getD 0) (lvl + 1)
                              rw [hri] at this
                              exact this
                            · rw [if_neg hpt] at hri
                              exact (Prod.mk.inj hri).2.symm
                          subst hd3
                          cases rres with
                          | error e => rfl
                          | ok r => rfl

theorem descend_listS_pop (rec : Pop → Int → (Except Unit DTree) × Pop)
    (hrec : ∀ d c, (rec d c).2 = d) :
    ∀ (l : List (Int × Int)) (data : Pop), (descend_listS rec data l).2 = data := by
  intro l
  induction l with
  | nil => intro data; rfl
  | cons c rest ih =>
      intro data
      obtain ⟨cid, ccoi⟩ := c
      rw [descend_listS]
      cases hr : rec data cid with
      | mk res d1 =>
          have hd1 : d1 = data := by
            have := hrec data cid
            rw [hr] at this
            exact this
          subst hd1
          cases res with
          | error e => rfl
          | ok sub =>
              simp only []
              cases hdl : descend_listS rec d1 rest with
              | mk res2 d2 =>
                  have hd2 : d2 = d1 := by
                    have := ih d1
                    rw [hdl] at this
                    exact this
                  subst hd2
                  cases res2 with
                  | error e => rfl
                  | ok tl => rfl

theorem bfdtS_pop : ∀ (fuel : Nat) (data : Pop) (i : Int),
    (build_full_descendant_treeS data i fuel).2 = data := by
  intro fuel
  induction fuel with
  | zero => intro data i; rfl
  | succ fuel ih =>
      intro data i
      rw [build_full_descendant_treeS]
      cases hfd : fetch_direct_descendantsS data i with
      | mk ds d1 =>
          have hd1 : d1 = data := by
            have := fetch_direct_descendantsS_pop data i
            rw [hfd] at this
            exact this
          subst hd1
          simp only []
          cases hdl : descend_listS (fun d cid => build_full_descendant_treeS d cid fuel)
              d1 ds with
          | mk res d2 =>
              have hd2 : d2 = d1 := by
                have := descend_listS_pop _ (fun d c => ih d c) ds d1
                rw [hdl] at this
                exact this
              subst hd2
              cases res with
              | error e => rfl
              | ok entries => rfl

/-- C9: the engine never mutates the population.  In the state-passing
embedding — where the population object is threaded through every call
exactly as the Python dict reference is — every query returns the
population it was given, for every root, mode and recursion budget. -/
theorem c9_population_unchanged (data : Pop) (rootId : Int) (mode : Mode)
    (fuel : Nat) : (query_graphS data rootId mode fuel).2 = data := by
  cases mode with
  | ancestors =>
      unfold query_graphS
      cases hb : build_family_treeS data rootId 0 fuel with
      | mk res d1 =>
          have hd1 : d1 = data := by
            have := bftS_pop fuel data rootId 0
            rw [hb] at this
            exact this
          subst hd1
          cases res with
          | error e => rfl
          | ok o =>
              cases o with
              | none => rfl
              | some kt =>
                  obtain ⟨k, t⟩ := kt
                  simp only []
                  by_cases hk : k = rootId
                  · rw [if_pos hk]
                  · rw [if_neg hk]
  | descendants =>
      unfold query_graphS
      cases hb : build_full_descendant_treeS data rootId fuel with
      | mk res d1 =>
          have hd1 : d1 = data := by
            have := bfdtS_pop fuel data rootId
            rw [hb] at this
            exact this
          subst hd1
          cases res with
          | error e => rfl
          | ok dt => rfl
  | full_tree =>
      unfold query_graphS
      cases hb : build_family_treeS data rootId 0 fuel with
      | mk res d1 =>
          have hd1 : d1 = data := by
            have := bftS_pop fuel data rootId 0
            rw [hb] at this
            exact this
          subst hd1
          cases res with
          | error e => rfl
          | ok o =>
              cases o with
              | none => rfl
              | some kt =>
                  obtain ⟨k, t⟩ := kt
                  simp only []
                  by_cases hk : k = rootId
                  · rw [if_pos hk]
                    cases hd : build_full_descendant_treeS d1 rootId fuel with
                    | mk res2 d2 =>
                        have hd2 : d2 = d1 := by
                          have := bfdtS_pop fuel d1 rootId
                          rw [hd] at this
                          exact this
                        subst hd2
                        cases res2 with
                        | error e => rfl
                        | ok dt => rfl
                  · rw [if_neg hk]

theorem node_attrs_ensure_cases {ns : List (Int × NodeAttrs)} {i n : Int}
    {a : NodeAttrs} (h : node_attrs (ensure_node ns i) n = some a) :
    node_attrs ns n = some a ∨ a = emptyAttrs := by
  cases ha : ns.any (fun kv => kv.1 == i) with
  | true =>
      rw [ensure_node_of_present ((any_key_iff_isSome ns i).mp ha)] at h
      exact Or.inl h
  | false =>
      rw [ensure_node_of_absent ha] at h
      unfold node_attrs at h ⊢
      cases hf : List.find? (fun kv => kv.1 == n) ns with
      | some kv => rw [find?_append_some _ _ hf] at h; exact Or.inl h
      | none =>
          rw [List.find?_append, hf] at h
          by_cases hin : i = n
          · subst hin
            simp at h
            exact Or.inr h.symm
          · have hb : (i == n) = false := by simpa using hin
            simp [List.find?_cons, hb] at h

theorem add_edge_nodes_cases {g : Graph} {p c n : Int} {a : NodeAttrs}
    (h : node_attrs (add_edge g p c).nodes n = some a) :
    node_attrs g.nodes n = some a ∨ a = emptyAttrs := by
  unfold add_edge at h
  simp only [] at h
  rcases node_attrs_ensure_cases h with h | he
  · rcases node_attrs_ensure_cases h with h | he
    · exact Or.inl h
    · exact Or.inr he
  · exact Or.inr he

mutual

theorem ane_coi (data : Pop) (g : Graph) (t : FNode) (lvl : Int)
    (htw : TW data t) (htc : ∃ r, (t.nid, r) ∈ data ∧ t.coi = r.coi)
    {n : Int} {a : NodeAttrs} {c : Int}
    (h : node_attrs (add_nodes_edges g t lvl).nodes n = some a)
    (hc : a.inbreeding = some c) :
    node_attrs g.nodes n = some a ∨ ∃ r, (n, r) ∈ data ∧ c = r.coi := by
  cases t with
  | mk nid ncoi v l r =>
      rw [TW_mk] at htw
      simp only [FNode.nid, FNode.coi] at htc
      simp only [add_nodes_edges] at h
      rcases aps_coi data _ nid lvl r htw.2 h hc with h | found
      · rcases aps_coi data _ nid lvl l htw.1 h hc with h | found
        · by_cases hn : n = nid
          · subst hn
            unfold add_node_level at h
            rw [node_attrs_set_attrs_self] at h
            have ha := (Option.some.inj h).symm
            have hcn : c = ncoi := by
              rw [ha] at hc
              simpa using hc.symm
            obtain ⟨r0, hr0, hr0c⟩ := htc
            exact Or.inr ⟨r0, hr0, by rw [hcn, hr0c]⟩
          · unfold add_node_level at h
            rw [node_attrs_set_attrs_ne _ _ _ _ hn] at h
            exact Or.inl h
        · exact Or.inr found
      · exact Or.inr found

theorem aps_coi (data : Pop) (g : Graph) (nid lvl : Int)
    (s : Option (Int × FNode)) (hs : sideTW data nid s)
    {n : Int} {a : NodeAttrs} {c : Int}
    (h : node_attrs (add_parent_side g nid lvl s).nodes n = some a)
    (hc : a.inbreeding = some c) :
    node_attrs g.nodes n = some a ∨ ∃ r, (n, r) ∈ data ∧ c = r.coi := by
  cases s with
  | none => exact Or.inl (by simpa [add_parent_side] using h)
  | some kv =>
      obtain ⟨pid, pd⟩ := kv
      obtain ⟨_, hid, ⟨r', hr'm, hr'c⟩, htw⟩ := hs
      simp only [add_parent_side] at h
      have htc : ∃ r, (pd.nid, r) ∈ data ∧ pd.coi = r.coi := by
        refine ⟨r', ?_, hr'c⟩
        rw [hid]
        exact hr'm
      rcases ane_coi data _ pd (lvl - 1) htw htc h hc with h | found
      · rcases add_edge_nodes_cases h with h | he
        · by_cases hn : n = pid
          · subst hn
            unfold add_node_level at h
            rw [node_attrs_set_attrs_self] at h
            have ha := (Option.some.inj h).symm
            have hcn : c = pd.coi := by
              rw [ha] at hc
              simpa using hc.symm
            exact Or.inr ⟨r', hr'm, by rw [hcn, hr'c]⟩
          · unfold add_node_level at h
            rw [node_attrs_set_attrs_ne _ _ _ _ hn] at h
            exact Or.inl h
        · rw [he] at hc
          simp [emptyAttrs] at hc
      · exact Or.inr found

end

mutual

theorem adtg_coi (data : Pop) (g : Graph) (pid : Int) (dt : DTree)
    (hw : DTW data pid dt) {n : Int} {a : NodeAttrs} {c : Int}
    (h : node_attrs (add_descendants_to_graph g pid dt).nodes n = some a)
    (hc : a.inbreeding = some c) :
    node_attrs g.nodes n = some a ∨ ∃ r, (n, r) ∈ data ∧ c = r.coi := by
  cases dt with
  | mk entries =>
      rw [DTW_mk] at hw
      simp only [add_descendants_to_graph] at h
      exact adtg_coi_l data g pid entries hw h hc

theorem adtg_coi_l (data : Pop) (g : Graph) (pid : Int)
    (entries : List (Int × Int × DTree)) (hw : DTWl data pid entries)
    {n : Int} {a : NodeAttrs} {c : Int}
    (h : node_attrs (add_desc_entries g pid entries).nodes n = some a)
    (hc : a.inbreeding = some c) :
    node_attrs g.nodes n = some a ∨ ∃ r, (n, r) ∈ data ∧ c = r.coi := by
  cases entries with
  | nil => exact Or.inl (by simpa [add_desc_entries] using h)
  | cons kv rest =>
      obtain ⟨cid, ccoi, sub⟩ := kv
      obtain ⟨_, ⟨r', hr'm, hr'c⟩, hsub, hrest⟩ := hw
      simp only [add_desc_entries] at h
      rcases adtg_coi_l data _ pid rest hrest h hc with h | found
      · have hstep : node_attrs (add_edge (add_node_label g cid ccoi) pid cid).nodes n
              = some a →
            node_attrs g.nodes n = some a ∨ ∃ r, (n, r) ∈ data ∧ c = r.coi := by
          intro h1
          rcases add_edge_nodes_cases h1 with h1 | he
          · by_cases hn : n = cid
            · subst hn
              unfold add_node_label at h1
              rw [node_attrs_set_attrs_self] at h1
              have ha := (Option.some.inj h1).symm
              have hcn : c = ccoi := by
                rw [ha] at hc
                simpa using hc.symm
              exact Or.inr ⟨r', hr'm, by rw [hcn, hr'c]⟩
            · unfold add_node_label at h1
              rw [node_attrs_set_attrs_ne _ _ _ _ hn] at h1
              exact Or.inl h1
          · rw [he] at hc
            simp [emptyAttrs] at hc
        by_cases hne : !sub.entries.isEmpty
        · rw [if_pos hne] at h
          rcases adtg_coi data _ cid sub hsub h hc with h | found
          · exact hstep h
          · exact Or.inr found
        · rw [if_neg hne] at h
          exact hstep h
      · exact Or.inr found

end

/-- C1 (amended): in every mode, every node of the assembled graph that
carries an inbreeding value carries exactly the `coi` field of the
record stored under its id in the population — the code copies that
field from the data (which the remote API supplies) and never computes
it.  (Nodes created implicitly by `add_edge` carry no inbreeding.) -/
theorem c1_attached_coi_is_record_field (data : Pop) (rootId : Int)
    (mode : Mode) (fuel : Nat) (g : Graph) (hW : WellKeyed data)
    (hq : query_graph data rootId mode fuel = .ok g) :
    ∀ n a c, node_attrs g.nodes n = some a → a.inbreeding = some c →
      ∃ r, (n, r) ∈ data ∧ c = r.coi := by
  intro n a c hna hc
  have hnil : ∀ {a' : NodeAttrs}, node_attrs newDiGraph.nodes n = some a' → False := by
    intro a' h
    simp [newDiGraph, node_attrs_nil] at h
  cases mode with
  | ancestors =>
      obtain ⟨t, hb, hg⟩ := qg_anc hq
      obtain ⟨r, hpl, hkr, hnid, hcoi, htw⟩ := build_tw fuel data rootId 0 rootId t hW hb
      have hmem : (rootId, r) ∈ data := pylookup_mem_of_some hpl
      have hrid : r.id = rootId := hW (rootId, r) hmem
      have htc : ∃ r0, (t.nid, r0) ∈ data ∧ t.coi = r0.coi := by
        refine ⟨r, ?_, hcoi⟩
        rw [hnid, hrid]
        exact hmem
      subst hg
      rcases ane_coi data _ t 0 htw htc hna hc with h | found
      · exact absurd h hnil
      · exact found
  | descendants =>
      obtain ⟨dt, hb, hg⟩ := qg_desc hq
      have hdtw := bfdt_dtw fuel data rootId dt hb
      subst hg
      rcases adtg_coi data _ rootId dt hdtw hna hc with h | found
      · exact absurd h hnil
      · exact found
  | full_tree =>
      obtain ⟨t, dt, hb, hd, hg⟩ := qg_full hq
      obtain ⟨r, hpl, hkr, hnid, hcoi, htw⟩ := build_tw fuel data rootId 0 rootId t hW hb
      have hmem : (rootId, r) ∈ data := pylookup_mem_of_some hpl
      have hrid : r.id = rootId := hW (rootId, r) hmem
      have htc : ∃ r0, (t.nid, r0) ∈ data ∧ t.coi = r0.coi := by
        refine ⟨r, ?_, hcoi⟩
        rw [hnid, hrid]
        exact hmem
      have hdtw := bfdt_dtw fuel data rootId dt hd
      subst hg
      rcases adtg_coi data _ rootId dt hdtw hna hc with h | found
      · rcases ane_coi data _ t 0 htw htc h hc with h | found
        · exact absurd h hnil
        · exact found
      · exact found

/-- Witness for C1's amended statement: on the example population whose
`coi` fields are (0,0,0,0,2), the value attached to each queried node is
exactly that record field, and the fields coincide with the spec's
multiset-excess values; also checked on the descendant graph of
`desPop`, where node 2 carries its record's `coi` and the implicit root
carries none. -/
theorem c1_attached_coi_witness :
    query_graph exPop 5 .ancestors 10 = .ok exAncGraph ∧
    specCoefficient exPop 5 10 = 2 ∧ specCoefficient exPop 1 10 = 0 ∧
    specCoefficient exPop 2 10 = 0 ∧ specCoefficient exPop 3 10 = 0 ∧
    specCoefficient exPop 4 10 = 0 ∧
    (∃ r, ((5 : Int), r) ∈ exPop ∧ (2 : Int) = r.coi) ∧
    (∃ r, ((1 : Int), r) ∈ exPop ∧ (0 : Int) = r.coi) ∧
    query_graph desPop 1 .descendants 10 = .ok desGraph ∧
    (∃ r, ((2 : Int), r) ∈ desPop ∧ (0 : Int) = r.coi) :=
  ⟨rfl, by decide, by decide, by decide, by decide, by decide,
   c1_attached_coi_is_record_field exPop 5 .ancestors 10 exAncGraph (by decide)
     rfl 5 ⟨some 0, some 2, none⟩ 2 rfl rfl,
   c1_attached_coi_is_record_field exPop 5 .ancestors 10 exAncGraph (by decide)
     rfl 1 ⟨some (-2), some 0, none⟩ 0 rfl rfl,
   rfl,
   c1_attached_coi_is_record_field desPop 1 .descendants 10 desGraph (by decide)
     rfl 2 ⟨none, some 0, some "Trout #2"⟩ 0 rfl rfl⟩

/-- C8: in every population, a truthy parent id referenced by an existing
individual but absent from the population is pruned as an absent branch,
on whichever side it occurs: the recursive call returns `None`, which is
stored as that child slot, and the rest of the computation — including an
arbitrary surviving subtree on the other side — proceeds exactly as it
would otherwise; the missing parent itself never causes a failure. -/
theorem c8_missing_parent_pruned (data : Pop) (i : Int) (r : Trout)
    (lvl fuel : Nat) (h1 : pylookup data i = some r) :
    (∀ p, left_parent_of r = some p → p ≠ 0 → pylookup data p = none →
      build_family_tree data i lvl (fuel + 2) =
        match (if pytruthy (right_parent_of r) = true then
                 build_family_tree data ((right_parent_of r).getD 0) (lvl + 1) (fuel + 1)
               else .ok none) with
        | .error e => .error e
        | .ok rv => .ok (some (r.id, .mk r.id r.coi lvl none rv))) ∧
    (∀ q, right_parent_of r = some q → q ≠ 0 → pylookup data q = none →
      build_family_tree data i lvl (fuel + 2) =
        match (if pytruthy (left_parent_of r) = true then
                 build_family_tree data ((left_parent_of r).getD 0) (lvl + 1) (fuel + 1)
               else .ok none) with
        | .error e => .error e
        | .ok lv => .ok (some (r.id, .mk r.id r.coi lvl lv none))) := by
  constructor
  · intro p hp hp0 h3
    rw [build_family_tree, fetch_parent_some h1, hp]
    simp only []
    rw [show pytruthy (some p) = true by simp [pytruthy, hp0]]
    simp only [if_pos]
    rw [show (Option.getD (some p) 0) = p from rfl]
    rw [bft_missing (lvl + 1) fuel h3]
  · intro q hq hq0 h3
    rw [build_family_tree, fetch_parent_some h1, hq]
    simp only []
    rw [show pytruthy (some q) = true by simp [pytruthy, hq0]]
    simp only [if_pos]
    rw [show (Option.getD (some q) 0) = q from rfl]
    rw [bft_missing (lvl + 1) fuel h3]

/-- Witness for C8: in `gapPop` the missing parent is on the left (7,
with the present founder 2 on the right); in `gapPop2` it is on the
right (9, with the present founder 2 on the left).  Both traversals
succeed, the missing branch is `None`, the present branch is built, and
the assembled graph has no node 7. -/
theorem c8_missing_parent_witness :
    pylookup gapPop 1 = some ⟨1, 0, some [7, 2]⟩ ∧
    pylookup gapPop 7 = none ∧
    build_family_tree gapPop 1 0 10 =
      .ok (some (1, .mk 1 0 0 none (some (2, .mk 2 0 1 none none)))) ∧
    pylookup gapPop2 1 = some ⟨1, 0, some [2, 9]⟩ ∧
    pylookup gapPop2 9 = none ∧
    build_family_tree gapPop2 1 0 10 =
      .ok (some (1, .mk 1 0 0 (some (2, .mk 2 0 1 none none)) none)) ∧
    query_graph gapPop 1 .ancestors 10 =
      .ok ⟨[(1, ⟨some 0, some 0, none⟩), (2, ⟨some (-1), some 0, none⟩)], [(2, 1)]⟩ ∧
    node_attrs (⟨[(1, ⟨some 0, some 0, none⟩), (2, ⟨some (-1), some 0, none⟩)],
      [(2, 1)]⟩ : Graph).nodes 7 = none := by
  refine ⟨rfl, rfl, ?_, rfl, rfl, ?_, rfl, rfl⟩
  · exact ((c8_missing_parent_pruned gapPop 1 ⟨1, 0, some [7, 2]⟩ 0 8 rfl).1
      7 rfl (by decide) rfl).trans rfl
  · exact ((c8_missing_parent_pruned gapPop2 1 ⟨1, 0, some [2, 9]⟩ 0 8 rfl).2
      9 rfl (by decide) rfl).trans rfl

/-- C10: in every population, a parent id equal to 0 — on either side —
is falsy in Python, so the truthiness test `if left_parent_id:` treats
the link as absent: that branch is not traversed (no recursive call, no
node 0 in the tree), while the other side proceeds exactly as it would
otherwise. -/
theorem c10_zero_parent_truthy (data : Pop) (i : Int) (r : Trout)
    (lvl fuel : Nat) (h1 : pylookup data i = some r) :
    (left_parent_of r = some 0 →
      build_family_tree data i lvl (fuel + 1) =
        match (if pytruthy (right_parent_of r) = true then
                 build_family_tree data ((right_parent_of r).getD 0) (lvl + 1) fuel
               else .ok none) with
        | .error e => .error e
        | .ok rv => .ok (some (r.id, .mk r.id r.coi lvl none rv))) ∧
    (right_parent_of r = some 0 →
      build_family_tree data i lvl (fuel + 1) =
        match (if pytruthy (left_parent_of r) = true then
                 build_family_tree data ((left_parent_of r).getD 0) (lvl + 1) fuel
               else .ok none) with
        | .error e => .error e
        | .ok lv => .ok (some (r.id, .mk r.id r.coi lvl lv none))) := by
  constructor
  · intro hlz
    rw [build_family_tree, fetch_parent_some h1, hlz]
    simp only []
    rw [if_neg (show ¬ (pytruthy (some (0 : Int)) = true) by simp [pytruthy])]
  · intro hrz
    rw [build_family_tree, fetch_parent_some h1, hrz]
    simp only []
    rw [if_neg (show ¬ (pytruthy (some (0 : Int)) = true) by simp [pytruthy])]

/-- Witness for C10: in `zeroPop2`, individual 3 has parents `[0, 1]`
(left zero, right present) and individual 4 has parents `[1, 0]` (left
present, right zero); in `zeroPop`, individual 3 has parents `[0, 0]`.
In each case the zero link is pruned, and id 0 — although present in the
population — never enters the tree or the graph. -/
theorem c10_zero_parent_witness :
    pylookup zeroPop2 3 = some ⟨3, 0, some [0, 1]⟩ ∧
    pylookup zeroPop2 4 = some ⟨4, 0, some [1, 0]⟩ ∧
    pylookup zeroPop2 0 = some ⟨0, 0, none⟩ ∧
    build_family_tree zeroPop2 3 0 10 =
      .ok (some (3, .mk 3 0 0 none (some (1, .mk 1 0 1 none none)))) ∧
    build_family_tree zeroPop2 4 0 10 =
      .ok (some (4, .mk 4 0 0 (some (1, .mk 1 0 1 none none)) none)) ∧
    build_family_tree zeroPop 3 0 10 = .ok (some (3, .mk 3 0 0 none none)) ∧
    query_graph zeroPop2 3 .ancestors 10 =
      .ok ⟨[(3, ⟨some 0, some 0, none⟩), (1, ⟨some (-1), some 0, none⟩)], [(1, 3)]⟩ ∧
    node_attrs (⟨[(3, ⟨some 0, some 0, none⟩), (1, ⟨some (-1), some 0, none⟩)],
      [(1, 3)]⟩ : Graph).nodes 0 = none := by
  refine ⟨rfl, rfl, rfl, ?_, ?_, ?_, rfl, rfl⟩
  · exact ((c10_zero_parent_truthy zeroPop2 3 ⟨3, 0, some [0, 1]⟩ 0 9 rfl).1
      rfl).trans rfl
  · exact ((c10_zero_parent_truthy zeroPop2 4 ⟨4, 0, some [1, 0]⟩ 0 9 rfl).2
      rfl).trans rfl
  · exact ((c10_zero_parent_truthy zeroPop 3 ⟨3, 0, some [0, 0]⟩ 0 9 rfl).1
      rfl).trans rfl
